import Mathlib

/-!
Verification of the Stage 2 merge layer (area grouping, fuzzy de-duplication,
and moisture-conflict detection) of the report-generation pipeline.

The definitions below are a shallow embedding of `src/step2/merge_layer.py`
(and the data model of `src/step2/models.py`).  Python strings are modelled as
Lean `String` (lists of characters); the character classes of the regexes
`_WS_RE`, `_CTRL_RE` and `_PUNCT_RE`, `str.strip`, `str.lower`/`str.casefold`
are modelled at ASCII level.  `difflib.SequenceMatcher.ratio` is modelled
exactly (no junk heuristic applies: the compared strings never reach the
autojunk length of 200): the longest matching block is the lexicographically
first `(i, j)` maximising the length of the common run starting at `a[i]` and
`b[j]`, and the total match size is obtained by recursing on both sides of the
block.  Floats are modelled as exact rationals.
-/

namespace MergeLayer

/-- Whitespace characters: Python's `\s` class and `str.strip` (ASCII). -/
def isWsChar (c : Char) : Bool :=
  decide (c = ' ' ∨ c = '\t' ∨ c = '\n' ∨ c = '\r' ∨ c.toNat = 11 ∨ c.toNat = 12)

/-- Characters matched by `_CTRL_RE = [\x00-\x08\x0b\x0c\x0e-\x1f]`. -/
def isCtrlChar (c : Char) : Bool :=
  decide (c.toNat ≤ 8 ∨ c.toNat = 11 ∨ c.toNat = 12 ∨ (14 ≤ c.toNat ∧ c.toNat ≤ 31))

/-- Characters of Python's `\w` class (ASCII): letters, digits, underscore. -/
def isWordChar (c : Char) : Bool := c.isAlphanum || c = '_'

/-- Python `str.strip`: drop whitespace from both ends. -/
def trimChars (l : List Char) : List Char :=
  ((l.dropWhile (fun c => isWsChar c)).reverse.dropWhile (fun c => isWsChar c)).reverse

/-- Python `str.lower` / `str.casefold` (ASCII model). -/
def lowerChars (l : List Char) : List Char := l.map Char.toLower

/-- One step of `_CTRL_RE.sub(" ", ·)`. -/
def ctrlToSpace (c : Char) : Char := if isCtrlChar c then ' ' else c

/-- `_WS_RE.sub(" ", ·)`: replace every maximal whitespace run by one space.
The flag records whether we are inside a whitespace run. -/
def collapseAux : Bool → List Char → List Char
  | _, [] => []
  | inRun, c :: cs =>
    if isWsChar c then
      if inRun then collapseAux true cs else ' ' :: collapseAux true cs
    else c :: collapseAux false cs

def collapseWs (l : List Char) : List Char := collapseAux false l

/-- `_normalize_area` from `merge_layer.py`. -/
def normalize_area (s : String) : String :=
  let t := trimChars s.data
  if t = [] ∨ lowerChars t = "not available".data then "not_available"
  else ⟨lowerChars (collapseWs (t.map ctrlToSpace))⟩

/-- Per-character part of `_normalize_text_for_match`: control char to space,
casefold, then non-word non-space to space. -/
def normCharMap (c : Char) : Char :=
  let c1 := (ctrlToSpace c).toLower
  if isWordChar c1 || isWsChar c1 then c1 else ' '

/-- Split into maximal non-whitespace runs (the accumulator holds the current
run, reversed). -/
def wordsAux : List Char → List Char → List (List Char)
  | cur, [] => if cur = [] then [] else [cur.reverse]
  | cur, c :: cs =>
    if isWsChar c then
      if cur = [] then wordsAux [] cs else cur.reverse :: wordsAux [] cs
    else wordsAux (c :: cur) cs

def splitWs (l : List Char) : List (List Char) := wordsAux [] l

/-- Join words with single spaces: together with `splitWs` this models
`_WS_RE.sub(" ", ·).strip()`. -/
def joinWords : List (List Char) → List Char
  | [] => []
  | [w] => w
  | w :: ws => w ++ ' ' :: joinWords ws

/-- `_normalize_text_for_match` from `merge_layer.py`. -/
def normalize_text_for_match (s : String) : String :=
  let t := trimChars s.data
  if t = [] ∨ lowerChars t = "not available".data then ""
  else ⟨joinWords (splitWs (t.map normCharMap))⟩

/-- Length of the common prefix of two character lists. -/
def commonPrefixLen : List Char → List Char → Nat
  | x :: xs, y :: ys => if x = y then commonPrefixLen xs ys + 1 else 0
  | _, _ => 0

/-- One candidate step of `find_longest_match`: a strictly longer common run
starting at `(i, j)` replaces the current best block. -/
def bmStep (a b : List Char) (i : Nat) (best : Nat × Nat × Nat) (j : Nat) : Nat × Nat × Nat :=
  let k := commonPrefixLen (a.drop i) (b.drop j)
  if best.2.2 < k then (i, j, k) else best

def bmOuter (a b : List Char) (best : Nat × Nat × Nat) (i : Nat) : Nat × Nat × Nat :=
  (List.range b.length).foldl (bmStep a b i) best

/-- `SequenceMatcher.find_longest_match` on full strings: the first `(i, j)` in
lexicographic order whose common run is of maximal length (ties are broken by
smallest `i`, then smallest `j`, as documented for difflib). -/
def bestMatch (a b : List Char) : Nat × Nat × Nat :=
  (List.range a.length).foldl (bmOuter a b) (0, 0, 0)

/-- Total size of the matching blocks of `SequenceMatcher`, computed by
recursing left and right of the longest match.  The fuel argument only serves
termination; `a.length + b.length` is always enough because each recursive
call strictly decreases the sum of lengths. -/
def matchTotalFuel : Nat → List Char → List Char → Nat
  | 0, _, _ => 0
  | fuel + 1, a, b =>
    let m := bestMatch a b
    if m.2.2 = 0 then 0
    else
      matchTotalFuel fuel (a.take m.1) (b.take m.2.1) + m.2.2 +
        matchTotalFuel fuel (a.drop (m.1 + m.2.2)) (b.drop (m.2.1 + m.2.2))

def matchTotal (a b : List Char) : Nat := matchTotalFuel (a.length + b.length) a b

/-- `_similar` from `merge_layer.py`: `SequenceMatcher(None, a, b).ratio()`
with the two empty-string special cases. -/
def similar (a b : String) : ℚ :=
  if a.data = [] ∧ b.data = [] then 1
  else if a.data = [] ∨ b.data = [] then 0
  else (2 * (matchTotal a.data b.data : ℚ)) / ((a.data.length : ℚ) + (b.data.length : ℚ))

/-! ### Data model (`src/step2/models.py`) -/

inductive MoistureSigns where
  | yes
  | no
  | not_mentioned
deriving DecidableEq, Repr, Inhabited

def moistureSignsStr : MoistureSigns → String
  | .yes => "yes"
  | .no => "no"
  | .not_mentioned => "not_mentioned"

inductive ThermalAnomaly where
  | yes
  | no
  | not_mentioned
deriving DecidableEq, Repr, Inhabited

def thermalAnomalyStr : ThermalAnomaly → String
  | .yes => "yes"
  | .no => "no"
  | .not_mentioned => "not_mentioned"

structure Evidence where
  page_numbers : List Int
  quote : String
deriving DecidableEq, Repr, Inhabited

structure Measurement where
  name : String
  value : String
deriving DecidableEq, Repr, Inhabited

structure InspectionFact where
  area : String
  observation : String
  visible_issue : String
  moisture_signs : MoistureSigns
  measurements : List Measurement
  notes : String
  evidence : Evidence
deriving DecidableEq, Repr, Inhabited

structure TemperatureReading where
  label : String
  value : String
deriving DecidableEq, Repr, Inhabited

structure ThermalFact where
  area : String
  thermal_anomaly : ThermalAnomaly
  temperature_readings : List TemperatureReading
  suspected_issue : String
  notes : String
  evidence : Evidence
deriving DecidableEq, Repr, Inhabited

structure InspectionFactsDoc where
  facts : List InspectionFact
  missing_or_unclear_information : List String
deriving DecidableEq, Repr, Inhabited

structure ThermalFactsDoc where
  facts : List ThermalFact
  missing_or_unclear_information : List String
deriving DecidableEq, Repr, Inhabited

structure MergeConflict where
  type : String
  inspection_statement : String
  thermal_statement : String
  inspection_evidence : Evidence
  thermal_evidence : Evidence
  conflict_detected : Bool
deriving DecidableEq, Repr, Inhabited

structure MergedAreaEntry where
  area : String
  inspection_facts : List InspectionFact
  thermal_facts : List ThermalFact
  conflicts : List MergeConflict
  conflict_detected : Bool
deriving DecidableEq, Repr, Inhabited

structure MergedAreaDataDoc where
  merged_areas : List MergedAreaEntry
deriving DecidableEq, Repr, Inhabited

/-! ### Statement projectors -/

/-- Python `sep.join(parts)`. -/
def joinSep (sep : String) : List String → String
  | [] => ""
  | [s] => s
  | s :: rest => s ++ sep ++ joinSep sep rest

/-- The parts collected by `_inspection_statement` (a Python string is truthy
iff nonempty, and the `moisture_signs` literal is always truthy). -/
def inspection_parts (f : InspectionFact) : List String :=
  (if f.observation ≠ "" ∧ f.observation ≠ "Not Available" then [f.observation] else []) ++
  (if f.visible_issue ≠ "" ∧ f.visible_issue ≠ "Not Available" then [f.visible_issue] else []) ++
  (if f.moisture_signs ≠ MoistureSigns.not_mentioned then
      ["moisture_signs=" ++ moistureSignsStr f.moisture_signs] else []) ++
  (if f.notes ≠ "" ∧ f.notes ≠ "Not Available" then [f.notes] else [])

/-- `_inspection_statement` from `merge_layer.py`. -/
def inspection_statement (f : InspectionFact) : String :=
  if inspection_parts f = [] then "Not Available" else joinSep " | " (inspection_parts f)

def temp_entries (f : ThermalFact) : List String :=
  (f.temperature_readings.filter (fun t =>
      (t.label ≠ "" ∧ t.label ≠ "Not Available") ∨ (t.value ≠ "" ∧ t.value ≠ "Not Available"))).map
    (fun t => t.label ++ ":" ++ t.value)

def thermal_parts (f : ThermalFact) : List String :=
  (if f.suspected_issue ≠ "" ∧ f.suspected_issue ≠ "Not Available" then [f.suspected_issue] else []) ++
  (if f.thermal_anomaly ≠ ThermalAnomaly.not_mentioned then
      ["thermal_anomaly=" ++ thermalAnomalyStr f.thermal_anomaly] else []) ++
  (if temp_entries f ≠ [] then ["temps=" ++ joinSep "; " (temp_entries f)] else []) ++
  (if f.notes ≠ "" ∧ f.notes ≠ "Not Available" then [f.notes] else [])

/-- `_thermal_statement` from `merge_layer.py`. -/
def thermal_statement (f : ThermalFact) : String :=
  if thermal_parts f = [] then "Not Available" else joinSep " | " (thermal_parts f)

/-! ### Conflict heuristics -/

def NEG_MOISTURE_PATTERNS : List String :=
  ["no damp", "no moisture", "no leak", "no leakage", "no water", "dry",
   "not damp", "not wet", "no sign of moisture"]

def POS_MOISTURE_PATTERNS : List String :=
  ["moisture", "damp", "wet", "leak", "leakage", "water intrusion",
   "water ingress", "condensation"]

/-- `_mentions_any`: Python `p in norm` substring containment. -/
def mentions_any (text : String) (patterns : List String) : Bool :=
  patterns.any (fun p => decide (p.data <:+: (normalize_text_for_match text).data))

/-- `_inspection_indicates_no_moisture`. -/
def inspection_indicates_no_moisture (f : InspectionFact) : Bool :=
  decide (f.moisture_signs = MoistureSigns.no) ||
    mentions_any (inspection_statement f) NEG_MOISTURE_PATTERNS

/-- `_thermal_indicates_moisture_anomaly` (the `or ""` on `suspected_issue` is
the identity for strings). -/
def thermal_indicates_moisture_anomaly (f : ThermalFact) : Bool :=
  (decide (f.thermal_anomaly = ThermalAnomaly.yes) &&
      mentions_any f.suspected_issue POS_MOISTURE_PATTERNS) ||
    (mentions_any (thermal_statement f) POS_MOISTURE_PATTERNS &&
      decide (f.thermal_anomaly = ThermalAnomaly.yes))

/-! ### De-duplication -/

/-- The duplicate test of `_dedupe_facts`: some already-kept nonempty signature
is equal to `sig` or at least as similar as the threshold. -/
def is_dup (sig : String) (sigs : List String) (th : ℚ) : Bool :=
  sigs.any (fun ex => !(ex == "") && (sig == ex || decide (th ≤ similar sig ex)))

/-- The loop of `_dedupe_facts`: `sigs` holds the signatures of the already
kept facts, in order. -/
def dedupe_go {α : Type} (stmtFn : α → String) (th : ℚ) : List α → List String → List α
  | [], _ => []
  | f :: fs, sigs =>
    let sig := normalize_text_for_match (stmtFn f)
    if sig = "" then f :: dedupe_go stmtFn th fs (sigs ++ [sig])
    else if is_dup sig sigs th then dedupe_go stmtFn th fs sigs
    else f :: dedupe_go stmtFn th fs (sigs ++ [sig])

/-- `_dedupe_facts` from `merge_layer.py` (default threshold 92/100). -/
def dedupe_facts {α : Type} (stmtFn : α → String) (th : ℚ) (facts : List α) : List α :=
  dedupe_go stmtFn th facts []

/-! ### Merge orchestrator -/

/-- The display label computed by `ensure_area` on group creation. -/
def displayOf (raw : String) : String :=
  let d0 : String := ⟨trimChars raw.data⟩
  let d1 := if d0 = "" then "Not Available" else d0
  if lowerChars d1.data = "not available".data then "Not Available" else d1

/-- One area group of the insertion-ordered `area_map` dictionary. -/
structure RawGroup where
  key : String
  display : String
  insp : List InspectionFact
  therm : List ThermalFact
deriving DecidableEq, Repr, Inhabited

/-- `ensure_area` plus appending one inspection fact: Python dicts preserve
insertion order, so a new key goes to the end. -/
def addInsp : List RawGroup → InspectionFact → List RawGroup
  | [], f => [⟨normalize_area f.area, displayOf f.area, [f], []⟩]
  | g :: gs, f =>
    if g.key = normalize_area f.area then ⟨g.key, g.display, g.insp ++ [f], g.therm⟩ :: gs
    else g :: addInsp gs f

/-- `ensure_area` plus appending one thermal fact. -/
def addTherm : List RawGroup → ThermalFact → List RawGroup
  | [], f => [⟨normalize_area f.area, displayOf f.area, [], [f]⟩]
  | g :: gs, f =>
    if g.key = normalize_area f.area then ⟨g.key, g.display, g.insp, g.therm ++ [f]⟩ :: gs
    else g :: addTherm gs f

/-- Sorting the groups by key models `sorted(area_map.keys())` (keys are
distinct, so any correct sort agrees with Python's). -/
def insertGroup (g : RawGroup) : List RawGroup → List RawGroup
  | [] => [g]
  | h :: t => if g.key ≤ h.key then g :: h :: t else h :: insertGroup g t

def sortGroups : List RawGroup → List RawGroup
  | [] => []
  | g :: t => insertGroup g (sortGroups t)

def mk_conflict (inf : InspectionFact) (thf : ThermalFact) : MergeConflict :=
  ⟨"inspection_no_moisture_vs_thermal_moisture_anomaly",
   inspection_statement inf, thermal_statement thf, inf.evidence, thf.evidence, true⟩

/-- The conflict-detection double loop of `merge_and_dedupe`. -/
def area_conflicts (insp : List InspectionFact) (therm : List ThermalFact) : List MergeConflict :=
  insp.flatMap (fun inf =>
    if inspection_indicates_no_moisture inf then
      therm.flatMap (fun thf =>
        if thermal_indicates_moisture_anomaly thf then [mk_conflict inf thf] else [])
    else [])

/-- The per-area body of the output loop of `merge_and_dedupe`. -/
def build_entry (th : ℚ) (g : RawGroup) : MergedAreaEntry :=
  let insp := dedupe_facts inspection_statement th g.insp
  let therm := dedupe_facts thermal_statement th g.therm
  let conflicts := area_conflicts insp therm
  ⟨g.display, insp, therm, conflicts, !conflicts.isEmpty⟩

def inspFactsOf : Option InspectionFactsDoc → List InspectionFact
  | some d => d.facts
  | none => []

def thermFactsOf : Option ThermalFactsDoc → List ThermalFact
  | some d => d.facts
  | none => []

/-- `merge_and_dedupe` from `merge_layer.py` (threshold default 92/100). -/
def merge_and_dedupe (inspection : Option InspectionFactsDoc)
    (thermal : Option ThermalFactsDoc) (similarity_threshold : ℚ) : MergedAreaDataDoc :=
  let gs := (thermFactsOf thermal).foldl addTherm ((inspFactsOf inspection).foldl addInsp [])
  ⟨(sortGroups gs).map (build_entry similarity_threshold)⟩

/-! ### Basic lemmas about the character pipeline -/

theorem foldl_inv {β γ : Type} (P : γ → Prop) (f : γ → β → γ) :
    ∀ (l : List β) (init : γ), P init → (∀ acc x, x ∈ l → P acc → P (f acc x)) →
      P (l.foldl f init) := by
  intro l
  induction l with
  | nil => intro init h _; exact h
  | cons x xs ih =>
    intro init h hstep
    exact ih (f init x) (hstep init x (by simp) h)
      (fun acc y hy hacc => hstep acc y (by simp [hy]) hacc)

/-- If a list contains a whitespace character, collapsing whitespace runs
leaves at least one space in the output. -/
theorem space_mem_collapseAux (l : List Char) (c : Char) (hc : c ∈ l)
    (hw : isWsChar c = true) : ' ' ∈ collapseAux false l := by
  induction l with
  | nil => cases hc
  | cons x xs ih =>
    by_cases hx : isWsChar x = true
    · simp [collapseAux, hx]
    · cases hc with
      | head => exact absurd hw hx
      | tail _ hmem =>
        simp only [collapseAux, hx, if_false, Bool.false_eq_true]
        exact List.mem_cons_of_mem _ (ih hmem)

/-- Collapsing whitespace runs is the identity on whitespace-free lists. -/
theorem collapseAux_of_no_ws (b : Bool) (l : List Char)
    (h : ∀ c ∈ l, isWsChar c = false) : collapseAux b l = l := by
  induction l generalizing b with
  | nil => rfl
  | cons x xs ih =>
    have hx : isWsChar x = false := h x (by simp)
    simp only [collapseAux, hx, Bool.false_eq_true, if_false]
    rw [ih false (fun c hc => h c (by simp [hc]))]

theorem collapseWs_of_no_ws (l : List Char) (h : ∀ c ∈ l, isWsChar c = false) :
    collapseWs l = l :=
  collapseAux_of_no_ws false l h

theorem map_eq_self {α : Type} (f : α → α) (l : List α) (h : ∀ c ∈ l, f c = c) :
    l.map f = l := by
  induction l with
  | nil => rfl
  | cons x xs ih =>
    simp only [List.map_cons, h x (by simp), ih (fun c hc => h c (by simp [hc]))]

/-! ### C8: absent inputs are treated as empty fact lists -/

/-- C8: the merge never fails on absent or empty inputs: a `none` document
behaves exactly like a document with an empty fact list, and when the present
documents hold zero facts the output holds zero area groups. -/
theorem merge_absent_inputs :
    (∀ (t : Option ThermalFactsDoc) (q : ℚ) (m : List String),
        merge_and_dedupe none t q = merge_and_dedupe (some ⟨[], m⟩) t q) ∧
    (∀ (i : Option InspectionFactsDoc) (q : ℚ) (m : List String),
        merge_and_dedupe i none q = merge_and_dedupe i (some ⟨[], m⟩) q) ∧
    (∀ (q : ℚ) (mi mt : List String),
        (merge_and_dedupe (some ⟨[], mi⟩) (some ⟨[], mt⟩) q).merged_areas = []) ∧
    (∀ (q : ℚ) (mi : List String),
        (merge_and_dedupe (some ⟨[], mi⟩) none q).merged_areas = []) := by
  refine ⟨fun t q m => rfl, fun i q m => ?_, fun q mi mt => rfl, fun q mi => rfl⟩
  cases i <;> rfl

/-! ### C10: display label of the synthetic missing-area group -/

/-- The branch condition of `_normalize_area` and `_normalize_text_for_match`:
empty, whitespace-only, or any casing of "not available" (after stripping). -/
def area_sentinel (s : String) : Prop :=
  trimChars s.data = [] ∨ lowerChars (trimChars s.data) = "not available".data

instance (s : String) : Decidable (area_sentinel s) := by
  unfold area_sentinel; infer_instance

/-- C10: whenever `ensure_area` creates a group from an empty, whitespace-only
or arbitrarily-cased "not available" raw area, the stored display label is the
canonical string "Not Available", not the raw casing. -/
theorem display_label_not_available (raw : String) (h : area_sentinel raw) :
    displayOf raw = "Not Available" := by
  unfold displayOf
  rcases h with h | h
  · simp only [h]
    norm_num
  · by_cases h0 : trimChars raw.data = []
    · simp only [h0]
      norm_num
    · have hne : (⟨trimChars raw.data⟩ : String) ≠ "" := by
        intro hcon
        exact h0 (congrArg String.data hcon)
      simp only [if_neg hne]
      rw [if_pos]
      exact h

theorem display_label_not_available_witness :
    displayOf " NOT Available " = "Not Available" :=
  display_label_not_available " NOT Available " (by decide)

/-! ### C4: the reserved area key -/

set_option maxRecDepth 4000 in
/-- C4 counterexample: the real (non-sentinel) area content "not_available"
produces exactly the reserved key, so the reserved key is not distinct from
the key of every real content. -/
theorem normalize_area_reserved_counterexample :
    ¬ area_sentinel "not_available" ∧
      normalize_area "not_available" = "not_available" ∧
      normalize_area "" = "not_available" := by
  refine ⟨by decide, by decide, by decide⟩

/-- C4 (amended): empty, whitespace-only or case-insensitive "not available"
input maps to the reserved key `"not_available"`, and the reserved key differs
from the key of any real content except content whose trimmed case-folded text
is itself exactly `"not_available"`. -/
theorem normalize_area_reserved_key :
    (∀ s : String, area_sentinel s → normalize_area s = "not_available") ∧
    (∀ s : String, ¬ area_sentinel s →
      lowerChars (trimChars s.data) ≠ "not_available".data →
      normalize_area s ≠ "not_available") := by
  constructor
  · intro s h
    have h' : trimChars s.data = [] ∨ lowerChars (trimChars s.data) = "not available".data := h
    simp only [normalize_area]
    rw [if_pos h']
  · intro s hsent hlow hcon
    have hsent' : ¬ (trimChars s.data = [] ∨
        lowerChars (trimChars s.data) = "not available".data) := hsent
    simp only [normalize_area] at hcon
    rw [if_neg hsent'] at hcon
    have hdata : lowerChars (collapseWs ((trimChars s.data).map ctrlToSpace)) =
        "not_available".data := congrArg String.data hcon
    by_cases hws : ∃ c ∈ trimChars s.data, isWsChar (ctrlToSpace c) = true
    · rcases hws with ⟨c, hc, hcw⟩
      have hsp : ' ' ∈ collapseWs ((trimChars s.data).map ctrlToSpace) :=
        space_mem_collapseAux _ (ctrlToSpace c) (List.mem_map_of_mem _ hc) hcw
      have hsp2 : ' ' ∈ lowerChars (collapseWs ((trimChars s.data).map ctrlToSpace)) := by
        unfold lowerChars
        exact List.mem_map.mpr ⟨' ', hsp, by decide⟩
      rw [hdata] at hsp2
      revert hsp2
      decide
    · push_neg at hws
      have hmap : (trimChars s.data).map ctrlToSpace = trimChars s.data := by
        apply map_eq_self
        intro c hc
        unfold ctrlToSpace
        by_cases hctrl : isCtrlChar c = true
        · exfalso
          have hcw := hws c hc
          rw [ctrlToSpace, if_pos hctrl] at hcw
          exact hcw (by decide)
        · simp [hctrl]
      rw [hmap] at hdata
      rw [collapseWs_of_no_ws _ ?_] at hdata
      · exact hlow hdata
      · intro c hc
        have hcw := hws c hc
        unfold ctrlToSpace at hcw
        by_cases hctrl : isCtrlChar c = true
        · rw [if_pos hctrl] at hcw
          exact absurd (by decide) hcw
        · rw [if_neg hctrl] at hcw
          exact Bool.eq_false_iff.mpr hcw

theorem normalize_area_reserved_key_witness :
    normalize_area "  " = "not_available" ∧ normalize_area "Kitchen" ≠ "not_available" :=
  ⟨normalize_area_reserved_key.1 "  " (by decide),
   normalize_area_reserved_key.2 "Kitchen" (by decide) (by decide)⟩

/-! ### C9: substring keyword matching misfires inside longer words -/

def noEvidence : Evidence := ⟨[], "Not Available"⟩

/-- An inspection fact that reports nothing about moisture: its observation
merely mentions the laundry room. -/
def laundryFact : InspectionFact :=
  ⟨"Utility", "laundry room checked", "Not Available", MoistureSigns.not_mentioned, [],
   "Not Available", noEvidence⟩

/-- A thermal fact flagging a moisture anomaly in the same area. -/
def utilityThermalFact : ThermalFact :=
  ⟨"Utility", ThermalAnomaly.yes, [], "possible moisture intrusion", "Not Available", noEvidence⟩

set_option maxRecDepth 8000 in
/-- C9: keyword detection is plain substring containment on the normalized
statement, so the word "laundry" (which contains "dry") makes an inspection
fact with `moisture_signs = not_mentioned` count as indicating no moisture,
and pairing it with a thermal moisture anomaly in the same area produces a
moisture-contradiction conflict. -/
theorem substring_keyword_false_positive :
    laundryFact.moisture_signs = MoistureSigns.not_mentioned ∧
    "dry".data <:+: (normalize_text_for_match (inspection_statement laundryFact)).data ∧
    inspection_indicates_no_moisture laundryFact = true ∧
    ((merge_and_dedupe (some ⟨[laundryFact], []⟩) (some ⟨[utilityThermalFact], []⟩)
        (92/100)).merged_areas.map (fun e => (e.conflicts.map (fun c => c.type),
          e.conflict_detected))) =
      [(["inspection_no_moisture_vs_thermal_moisture_anomaly"], true)] := by
  refine ⟨rfl, by decide, by decide, by with_unfolding_all rfl⟩

/-! ### C6: de-duplication is idempotent and order preserving -/

theorem dedupe_go_cons {α : Type} (stmtFn : α → String) (th : ℚ) (f : α) (fs : List α)
    (sigs : List String) :
    dedupe_go stmtFn th (f :: fs) sigs =
      if normalize_text_for_match (stmtFn f) = "" then
        f :: dedupe_go stmtFn th fs (sigs ++ [normalize_text_for_match (stmtFn f)])
      else if is_dup (normalize_text_for_match (stmtFn f)) sigs th then
        dedupe_go stmtFn th fs sigs
      else f :: dedupe_go stmtFn th fs (sigs ++ [normalize_text_for_match (stmtFn f)]) := rfl

theorem dedupe_go_sublist {α : Type} (stmtFn : α → String) (th : ℚ) :
    ∀ (l : List α) (sigs : List String), (dedupe_go stmtFn th l sigs).Sublist l := by
  intro l
  induction l with
  | nil => intro sigs; simp [dedupe_go]
  | cons f fs ih =>
    intro sigs
    rw [dedupe_go_cons]
    by_cases h0 : normalize_text_for_match (stmtFn f) = ""
    · rw [if_pos h0]
      exact (ih _).cons₂ f
    · rw [if_neg h0]
      by_cases hd : is_dup (normalize_text_for_match (stmtFn f)) sigs th = true
      · rw [if_pos hd]
        exact (ih _).cons f
      · rw [if_neg hd]
        exact (ih _).cons₂ f

theorem dedupe_go_idem {α : Type} (stmtFn : α → String) (th : ℚ) :
    ∀ (l : List α) (sigs : List String),
      dedupe_go stmtFn th (dedupe_go stmtFn th l sigs) sigs = dedupe_go stmtFn th l sigs := by
  intro l
  induction l with
  | nil => intro sigs; rfl
  | cons f fs ih =>
    intro sigs
    by_cases h0 : normalize_text_for_match (stmtFn f) = ""
    · rw [dedupe_go_cons, if_pos h0, dedupe_go_cons, if_pos h0, ih (sigs ++ [normalize_text_for_match (stmtFn f)])]
    · by_cases hd : is_dup (normalize_text_for_match (stmtFn f)) sigs th = true
      · rw [dedupe_go_cons, if_neg h0, if_pos hd, ih sigs]
      · rw [dedupe_go_cons, if_neg h0, if_neg hd, dedupe_go_cons, if_neg h0, if_neg hd,
          ih (sigs ++ [normalize_text_for_match (stmtFn f)])]

/-- C6: running `_dedupe_facts` on its own output (same threshold) returns the
output unchanged, and the kept facts form a subsequence of the input, i.e.
original order is preserved with first occurrences winning. -/
theorem dedupe_idempotent_order_preserving {α : Type} (stmtFn : α → String) (th : ℚ)
    (facts : List α) :
    dedupe_facts stmtFn th (dedupe_facts stmtFn th facts) = dedupe_facts stmtFn th facts ∧
      (dedupe_facts stmtFn th facts).Sublist facts :=
  ⟨dedupe_go_idem stmtFn th facts [], dedupe_go_sublist stmtFn th facts []⟩

/-! ### Properties of the matcher -/

theorem foldl_const {β γ : Type} (l : List β) (init : γ) :
    l.foldl (fun acc _ => acc) init = init := by
  induction l generalizing init with
  | nil => rfl
  | cons x xs ih => exact ih init

theorem foldl_size_mono {β γ : Type} (m : γ → Nat) (f : γ → β → γ)
    (hmono : ∀ acc x, m acc ≤ m (f acc x)) (l : List β) (init : γ) :
    m init ≤ m (l.foldl f init) := by
  induction l generalizing init with
  | nil => exact le_refl _
  | cons x xs ih => exact le_trans (hmono init x) (ih (f init x))

theorem foldl_size_ge {β γ : Type} (m : γ → Nat) (f : γ → β → γ)
    (hmono : ∀ acc x, m acc ≤ m (f acc x)) (x₀ : β) (v : Nat)
    (hx : ∀ acc, v ≤ m (f acc x₀)) :
    ∀ (l : List β) (init : γ), x₀ ∈ l → v ≤ m (l.foldl f init) := by
  intro l
  induction l with
  | nil => intro init h; cases h
  | cons y ys ih =>
    intro init hmem
    cases hmem with
    | head => exact le_trans (hx init) (foldl_size_mono m f hmono ys (f init x₀))
    | tail _ h => exact ih (f init y) h

theorem commonPrefixLen_le_left : ∀ (a b : List Char), commonPrefixLen a b ≤ a.length := by
  intro a
  induction a with
  | nil => intro b; cases b <;> simp [commonPrefixLen]
  | cons x xs ih =>
    intro b
    cases b with
    | nil => simp [commonPrefixLen]
    | cons y ys =>
      by_cases h : x = y
      · simp only [commonPrefixLen, if_pos h, List.length_cons]
        have := ih ys
        omega
      · simp [commonPrefixLen, h]

theorem commonPrefixLen_le_right : ∀ (a b : List Char), commonPrefixLen a b ≤ b.length := by
  intro a
  induction a with
  | nil => intro b; cases b <;> simp [commonPrefixLen]
  | cons x xs ih =>
    intro b
    cases b with
    | nil => simp [commonPrefixLen]
    | cons y ys =>
      by_cases h : x = y
      · simp only [commonPrefixLen, if_pos h, List.length_cons]
        have := ih ys
        omega
      · simp [commonPrefixLen, h]

theorem commonPrefixLen_self : ∀ l : List Char, commonPrefixLen l l = l.length := by
  intro l
  induction l with
  | nil => rfl
  | cons x xs ih => simp [commonPrefixLen, ih]

theorem commonPrefixLen_take : ∀ (a b : List Char) (k : Nat),
    k ≤ commonPrefixLen a b → a.take k = b.take k := by
  intro a
  induction a with
  | nil =>
    intro b k hk
    cases b <;> simp_all [commonPrefixLen, Nat.le_zero]
  | cons x xs ih =>
    intro b k hk
    cases b with
    | nil => simp_all [commonPrefixLen, Nat.le_zero]
    | cons y ys =>
      by_cases h : x = y
      · rw [commonPrefixLen, if_pos h] at hk
        cases k with
        | zero => rfl
        | succ k =>
          simp only [List.take_succ_cons, h]
          rw [ih ys k (by omega)]
      · rw [commonPrefixLen, if_neg h] at hk
        interval_cases k
        rfl

/-- The invariant maintained by the search for the longest matching block. -/
def bmP (a b : List Char) (best : Nat × Nat × Nat) : Prop :=
  best.1 + best.2.2 ≤ a.length ∧ best.2.1 + best.2.2 ≤ b.length ∧
    best.2.2 ≤ commonPrefixLen (a.drop best.1) (b.drop best.2.1)

theorem bmStep_preserves (a b : List Char) (i j : Nat) (acc : Nat × Nat × Nat)
    (hi : i < a.length) (hj : j < b.length) (hacc : bmP a b acc) :
    bmP a b (bmStep a b i acc j) := by
  show bmP a b (if acc.2.2 < commonPrefixLen (a.drop i) (b.drop j) then
    (i, j, commonPrefixLen (a.drop i) (b.drop j)) else acc)
  by_cases hk : acc.2.2 < commonPrefixLen (a.drop i) (b.drop j)
  · rw [if_pos hk]
    have h1 : commonPrefixLen (a.drop i) (b.drop j) ≤ a.length - i :=
      le_trans (commonPrefixLen_le_left _ _) (by simp [List.length_drop])
    have h2 : commonPrefixLen (a.drop i) (b.drop j) ≤ b.length - j :=
      le_trans (commonPrefixLen_le_right _ _) (by simp [List.length_drop])
    refine ⟨?_, ?_, ?_⟩
    · show i + commonPrefixLen (a.drop i) (b.drop j) ≤ a.length
      omega
    · show j + commonPrefixLen (a.drop i) (b.drop j) ≤ b.length
      omega
    · exact le_refl _
  · rw [if_neg hk]
    exact hacc

theorem bestMatch_spec (a b : List Char) : bmP a b (bestMatch a b) := by
  unfold bestMatch
  apply foldl_inv (bmP a b) (bmOuter a b)
  · exact ⟨by simp, by simp, Nat.zero_le _⟩
  · intro acc i hi hacc
    unfold bmOuter
    apply foldl_inv (bmP a b) (bmStep a b i)
    · exact hacc
    · intro acc2 j hj hacc2
      exact bmStep_preserves a b i j acc2 (List.mem_range.mp hi) (List.mem_range.mp hj) hacc2

theorem bmStep_size_mono (a b : List Char) (i : Nat) (acc : Nat × Nat × Nat) (j : Nat) :
    acc.2.2 ≤ (bmStep a b i acc j).2.2 := by
  show acc.2.2 ≤ (if acc.2.2 < commonPrefixLen (a.drop i) (b.drop j) then
    (i, j, commonPrefixLen (a.drop i) (b.drop j)) else acc).2.2
  by_cases hk : acc.2.2 < commonPrefixLen (a.drop i) (b.drop j)
  · rw [if_pos hk]
    exact le_of_lt hk
  · rw [if_neg hk]

theorem bmOuter_size_mono (a b : List Char) (acc : Nat × Nat × Nat) (i : Nat) :
    acc.2.2 ≤ (bmOuter a b acc i).2.2 :=
  foldl_size_mono (fun t => t.2.2) (bmStep a b i) (bmStep_size_mono a b i) _ acc

theorem bestMatch_size_ge (a b : List Char) (i j : Nat) (hi : i < a.length)
    (hj : j < b.length) : commonPrefixLen (a.drop i) (b.drop j) ≤ (bestMatch a b).2.2 := by
  unfold bestMatch
  apply foldl_size_ge (fun t => t.2.2) (bmOuter a b) (bmOuter_size_mono a b) i
    (commonPrefixLen (a.drop i) (b.drop j)) ?_ (List.range a.length) (0, 0, 0)
    (List.mem_range.mpr hi)
  intro acc
  unfold bmOuter
  apply foldl_size_ge (fun t => t.2.2) (bmStep a b i) (bmStep_size_mono a b i) j
    (commonPrefixLen (a.drop i) (b.drop j)) ?_ (List.range b.length) acc
    (List.mem_range.mpr hj)
  intro acc2
  show commonPrefixLen (a.drop i) (b.drop j) ≤
    (if acc2.2.2 < commonPrefixLen (a.drop i) (b.drop j) then
      (i, j, commonPrefixLen (a.drop i) (b.drop j)) else acc2).2.2
  by_cases hk : acc2.2.2 < commonPrefixLen (a.drop i) (b.drop j)
  · rw [if_pos hk]
  · rw [if_neg hk]
    omega

theorem bestMatch_nil_left (b : List Char) : bestMatch [] b = (0, 0, 0) := rfl

theorem foldl_fn_congr {β γ : Type} (f g : γ → β → γ) (h : ∀ acc x, f acc x = g acc x) :
    ∀ (l : List β) (init : γ), l.foldl f init = l.foldl g init := by
  intro l
  induction l with
  | nil => intro init; rfl
  | cons x xs ih =>
    intro init
    simp only [List.foldl_cons, h init x, ih (g init x)]

theorem bestMatch_nil_right (a : List Char) : bestMatch a [] = (0, 0, 0) := by
  have houter : ∀ (acc : Nat × Nat × Nat) (i : Nat), bmOuter a [] acc i = acc := by
    intro acc i
    simp [bmOuter, List.range_zero]
  unfold bestMatch
  rw [foldl_fn_congr (bmOuter a []) (fun acc _ => acc) houter]
  exact foldl_const _ _

theorem matchTotalFuel_nil_left : ∀ (fuel : Nat) (b : List Char),
    matchTotalFuel fuel [] b = 0 := by
  intro fuel b
  cases fuel with
  | zero => rfl
  | succ n => simp [matchTotalFuel, bestMatch_nil_left]

theorem matchTotalFuel_nil_right : ∀ (fuel : Nat) (a : List Char),
    matchTotalFuel fuel a [] = 0 := by
  intro fuel a
  cases fuel with
  | zero => rfl
  | succ n => simp [matchTotalFuel, bestMatch_nil_right]

theorem matchTotalFuel_le : ∀ (fuel : Nat) (a b : List Char),
    matchTotalFuel fuel a b ≤ a.length ∧ matchTotalFuel fuel a b ≤ b.length := by
  intro fuel
  induction fuel with
  | zero => intro a b; exact ⟨Nat.zero_le _, Nat.zero_le _⟩
  | succ n ih =>
    intro a b
    have hspec := bestMatch_spec a b
    simp only [matchTotalFuel]
    rcases hbm : bestMatch a b with ⟨i, j, k⟩
    rw [hbm] at hspec
    obtain ⟨h1, h2, h3⟩ := hspec
    simp only at h1 h2 h3
    by_cases hk : k = 0
    · rw [if_pos hk]
      exact ⟨Nat.zero_le _, Nat.zero_le _⟩
    · rw [if_neg hk]
      dsimp only
      have hl := ih (a.take i) (b.take j)
      have hr := ih (a.drop (i + k)) (b.drop (j + k))
      have hlt : (a.take i).length = min i a.length := List.length_take i a
      have hlt2 : (b.take j).length = min j b.length := List.length_take j b
      have hdt : (a.drop (i + k)).length = a.length - (i + k) := List.length_drop _ a
      have hdt2 : (b.drop (j + k)).length = b.length - (j + k) := List.length_drop _ b
      omega

theorem matchTotalFuel_full_eq : ∀ (fuel : Nat) (a b : List Char),
    matchTotalFuel fuel a b = a.length → matchTotalFuel fuel a b = b.length → a = b := by
  intro fuel
  induction fuel with
  | zero =>
    intro a b h1 h2
    simp only [matchTotalFuel] at h1 h2
    rw [List.eq_nil_of_length_eq_zero h1.symm, List.eq_nil_of_length_eq_zero h2.symm]
  | succ n ih =>
    intro a b
    have hspec := bestMatch_spec a b
    simp only [matchTotalFuel]
    rcases hbm : bestMatch a b with ⟨i, j, k⟩
    rw [hbm] at hspec
    obtain ⟨hs1, hs2, hs3⟩ := hspec
    simp only at hs1 hs2 hs3
    by_cases hk : k = 0
    · rw [if_pos hk]
      intro h1 h2
      rw [List.eq_nil_of_length_eq_zero h1.symm, List.eq_nil_of_length_eq_zero h2.symm]
    · rw [if_neg hk]
      dsimp only
      intro h1 h2
      have hla := matchTotalFuel_le n (a.take i) (b.take j)
      have hra := matchTotalFuel_le n (a.drop (i + k)) (b.drop (j + k))
      have hlt : (a.take i).length = min i a.length := List.length_take i a
      have hlt2 : (b.take j).length = min j b.length := List.length_take j b
      have hdt : (a.drop (i + k)).length = a.length - (i + k) := List.length_drop _ a
      have hdt2 : (b.drop (j + k)).length = b.length - (j + k) := List.length_drop _ b
      have hTl1 : matchTotalFuel n (a.take i) (b.take j) = (a.take i).length := by omega
      have hTl2 : matchTotalFuel n (a.take i) (b.take j) = (b.take j).length := by omega
      have hTr1 : matchTotalFuel n (a.drop (i + k)) (b.drop (j + k)) =
          (a.drop (i + k)).length := by omega
      have hTr2 : matchTotalFuel n (a.drop (i + k)) (b.drop (j + k)) =
          (b.drop (j + k)).length := by omega
      have heqL : a.take i = b.take j := ih _ _ hTl1 hTl2
      have heqR : a.drop (i + k) = b.drop (j + k) := ih _ _ hTr1 hTr2
      have heqM : (a.drop i).take k = (b.drop j).take k := commonPrefixLen_take _ _ k hs3
      have hdk : (a.drop i).drop k = (b.drop j).drop k := by
        rw [List.drop_drop, List.drop_drop]
        exact heqR
      have hfinal : a.take i ++ ((a.drop i).take k ++ (a.drop i).drop k) =
          b.take j ++ ((b.drop j).take k ++ (b.drop j).drop k) := by
        rw [heqL, heqM, hdk]
      have ha2 : a.take i ++ ((a.drop i).take k ++ (a.drop i).drop k) = a := by
        rw [List.take_append_drop, List.take_append_drop]
      have hb2 : b.take j ++ ((b.drop j).take k ++ (b.drop j).drop k) = b := by
        rw [List.take_append_drop, List.take_append_drop]
      exact ha2.symm.trans (hfinal.trans hb2)

theorem bestMatch_self (l : List Char) (h : l ≠ []) : bestMatch l l = (0, 0, l.length) := by
  have hpos : 0 < l.length := List.length_pos.mpr h
  have h1 : l.length ≤ (bestMatch l l).2.2 := by
    have := bestMatch_size_ge l l 0 0 hpos hpos
    simpa [commonPrefixLen_self] using this
  obtain ⟨hb1, hb2, hb3⟩ := bestMatch_spec l l
  have hk_le : (bestMatch l l).2.2 ≤ l.length :=
    le_trans hb3 (le_trans (commonPrefixLen_le_left _ _) (by simp [List.length_drop]))
  have hk : (bestMatch l l).2.2 = l.length := le_antisymm hk_le h1
  have hi : (bestMatch l l).1 = 0 := by omega
  have hj : (bestMatch l l).2.1 = 0 := by omega
  have heta : bestMatch l l = ((bestMatch l l).1, (bestMatch l l).2.1, (bestMatch l l).2.2) := rfl
  rw [heta, hi, hj, hk]

theorem matchTotal_self (l : List Char) : matchTotal l l = l.length := by
  by_cases h : l = []
  · subst h; rfl
  · have hpos : 0 < l.length := List.length_pos.mpr h
    unfold matchTotal
    obtain ⟨n, hn⟩ : ∃ n, l.length + l.length = n + 1 := ⟨l.length + l.length - 1, by omega⟩
    rw [hn]
    simp only [matchTotalFuel, bestMatch_self l h]
    rw [if_neg (by omega)]
    simp [matchTotalFuel_nil_left, List.drop_length]

/-! ### C5: regularity of the similarity function -/

set_option maxRecDepth 8000 in
/-- C5 counterexample: `difflib`-style matching is order dependent, so the
similarity function of the merge layer is not symmetric. -/
theorem similar_not_symmetric :
    similar "ppuqq" "qqppxu" ≠ similar "qqppxu" "ppuqq" := by
  have h1 : similar "ppuqq" "qqppxu" = 6/11 := by with_unfolding_all rfl
  have h2 : similar "qqppxu" "ppuqq" = 4/11 := by with_unfolding_all rfl
  rw [h1, h2]
  norm_num

theorem similar_self (a : String) : similar a a = 1 := by
  unfold similar
  by_cases h : a.data = []
  · rw [if_pos ⟨h, h⟩]
  · rw [if_neg (by tauto), if_neg (by tauto), matchTotal_self]
    have hp : (0 : ℚ) < a.data.length := by
      exact_mod_cast List.length_pos.mpr h
    have h2 : (a.data.length : ℚ) + a.data.length = 2 * a.data.length := by ring
    rw [h2, div_self (by positivity)]

/-- C5 (amended): the similarity function is reflexive, bounded in `[0, 1]`,
gives two empty strings similarity 1 and an empty/non-empty pair similarity 0;
it is however not symmetric (see the counterexample). -/
theorem similar_regularity (a b : String) :
    similar a a = 1 ∧ 0 ≤ similar a b ∧ similar a b ≤ 1 ∧ similar "" "" = 1 ∧
      (a ≠ "" → similar a "" = 0 ∧ similar "" a = 0) := by
  refine ⟨similar_self a, ?_, ?_, similar_self "", ?_⟩
  · unfold similar
    split_ifs
    · norm_num
    · norm_num
    · have hM : 0 ≤ (matchTotal a.data b.data : ℚ) := by positivity
      have hla : (0 : ℚ) ≤ a.data.length := by positivity
      positivity
  · unfold similar
    split_ifs with h1 h2
    · norm_num
    · norm_num
    · push_neg at h1 h2
      have ha : a.data ≠ [] := h2.1
      have hb : b.data ≠ [] := h2.2
      have hpa : (0 : ℚ) < a.data.length := by exact_mod_cast List.length_pos.mpr ha
      have hpb : (0 : ℚ) < b.data.length := by exact_mod_cast List.length_pos.mpr hb
      rw [div_le_one (by positivity)]
      have hle := matchTotalFuel_le (a.data.length + b.data.length) a.data b.data
      have : 2 * matchTotal a.data b.data ≤ a.data.length + b.data.length := by
        unfold matchTotal
        omega
      exact_mod_cast this
  · intro ha
    have ha' : a.data ≠ [] := fun hcon => ha (by
      cases a
      simp_all)
    constructor
    · unfold similar
      rw [if_neg (fun h : a.data = [] ∧ ("" : String).data = [] => ha' h.1),
        if_pos (Or.inr rfl)]
    · unfold similar
      rw [if_neg (fun h : ("" : String).data = [] ∧ a.data = [] => ha' h.2),
        if_pos (Or.inl rfl)]

theorem similar_regularity_witness :
    similar "x" "x" = 1 ∧ similar "x" "" = 0 :=
  ⟨(similar_regularity "x" "y").1,
   ((similar_regularity "x" "y").2.2.2.2 (by decide)).1⟩

/-! ### C3: threshold semantics of de-duplication -/

theorem similar_ge_one_iff (a b : String) : 1 ≤ similar a b ↔ a = b := by
  constructor
  · unfold similar
    split_ifs with h1 h2
    · intro _
      cases a
      cases b
      simp_all
    · intro h
      norm_num at h
    · intro h
      push_neg at h1 h2
      have ha : a.data ≠ [] := h2.1
      have hb : b.data ≠ [] := h2.2
      have hpa : (0 : ℚ) < a.data.length := by exact_mod_cast List.length_pos.mpr ha
      have hpb : (0 : ℚ) < b.data.length := by exact_mod_cast List.length_pos.mpr hb
      rw [one_le_div (by positivity)] at h
      have hnat : a.data.length + b.data.length ≤ 2 * matchTotal a.data b.data := by
        exact_mod_cast h
      have hle := matchTotalFuel_le (a.data.length + b.data.length) a.data b.data
      unfold matchTotal at hnat
      have hfa : matchTotalFuel (a.data.length + b.data.length) a.data b.data =
          a.data.length := by omega
      have hfb : matchTotalFuel (a.data.length + b.data.length) a.data b.data =
          b.data.length := by omega
      have := matchTotalFuel_full_eq (a.data.length + b.data.length) a.data b.data hfa hfb
      cases a
      cases b
      simp_all
  · intro h
    subst h
    rw [similar_self]

theorem is_dup_one (sig : String) (sigs : List String) :
    is_dup sig sigs 1 = sigs.any (fun ex => !(ex == "") && (sig == ex)) := by
  unfold is_dup
  induction sigs with
  | nil => rfl
  | cons ex rest ih =>
    simp only [List.any_cons]
    rw [ih]
    congr 1
    by_cases hx : sig = ex
    · subst hx
      simp
    · have hbe : (sig == ex) = false := beq_eq_false_iff_ne.mpr hx
      have hdec : decide ((1 : ℚ) ≤ similar sig ex) = false :=
        decide_eq_false (fun hle => hx ((similar_ge_one_iff sig ex).mp hle))
      rw [hbe, hdec]
      simp

/-- Modelled from the spec's description of the threshold-1.0 behaviour, for
comparison with the code: the same de-duplication loop, but a candidate counts
as a duplicate only when some kept nonempty signature is exactly equal to its
signature. -/
def dedupe_exact_go {α : Type} (stmtFn : α → String) : List α → List String → List α
  | [], _ => []
  | f :: fs, sigs =>
    let sig := normalize_text_for_match (stmtFn f)
    if sig = "" then f :: dedupe_exact_go stmtFn fs (sigs ++ [sig])
    else if sigs.any (fun ex => !(ex == "") && (sig == ex)) then dedupe_exact_go stmtFn fs sigs
    else f :: dedupe_exact_go stmtFn fs (sigs ++ [sig])

def dedupe_exact {α : Type} (stmtFn : α → String) (facts : List α) : List α :=
  dedupe_exact_go stmtFn facts []

theorem dedupe_exact_go_cons {α : Type} (stmtFn : α → String) (f : α) (fs : List α)
    (sigs : List String) :
    dedupe_exact_go stmtFn (f :: fs) sigs =
      if normalize_text_for_match (stmtFn f) = "" then
        f :: dedupe_exact_go stmtFn fs (sigs ++ [normalize_text_for_match (stmtFn f)])
      else if sigs.any (fun ex => !(ex == "") && (normalize_text_for_match (stmtFn f) == ex)) then
        dedupe_exact_go stmtFn fs sigs
      else f :: dedupe_exact_go stmtFn fs (sigs ++ [normalize_text_for_match (stmtFn f)]) := rfl

theorem dedupe_go_one {α : Type} (stmtFn : α → String) :
    ∀ (l : List α) (sigs : List String),
      dedupe_go stmtFn 1 l sigs = dedupe_exact_go stmtFn l sigs := by
  intro l
  induction l with
  | nil => intro sigs; rfl
  | cons f fs ih =>
    intro sigs
    rw [dedupe_go_cons, dedupe_exact_go_cons, is_dup_one]
    by_cases h0 : normalize_text_for_match (stmtFn f) = ""
    · rw [if_pos h0, if_pos h0, ih]
    · rw [if_neg h0, if_neg h0]
      by_cases hd : sigs.any
          (fun ex => !(ex == "") && (normalize_text_for_match (stmtFn f) == ex)) = true
      · rw [if_pos hd, if_pos hd, ih]
      · rw [if_neg hd, if_neg hd, ih]

/-- The four observations realising non-monotonicity of the de-duplication in
the similarity threshold. -/
def obsFact (a obs : String) : InspectionFact :=
  ⟨a, obs, "Not Available", MoistureSigns.not_mentioned, [], "Not Available", noEvidence⟩

def monotonicityFacts : List InspectionFact :=
  [obsFact "K" "mmj", obsFact "K" "ppmmss", obsFact "K" "ppmmuuu", obsFact "K" "vvvmmss"]

set_option maxRecDepth 8000 in
/-- C3 counterexample: with thresholds `4/9 ≤ 8/13`, de-duplicating the same
four facts removes one fact at the lower threshold but two facts at the higher
threshold, refuting monotonicity. -/
theorem dedupe_monotonicity_counterexample :
    (4/9 : ℚ) ≤ 8/13 ∧
      monotonicityFacts.length -
        (dedupe_facts inspection_statement (4/9) monotonicityFacts).length = 1 ∧
      monotonicityFacts.length -
        (dedupe_facts inspection_statement (8/13) monotonicityFacts).length = 2 :=
  ⟨by norm_num, by with_unfolding_all rfl, by with_unfolding_all rfl⟩

set_option maxRecDepth 8000 in
/-- C3 (amended): raising the similarity threshold can strictly increase the
number of removed facts (monotonicity fails on the code), but at threshold 1
the de-duplication removes exactly the facts whose normalized signature is
identical to a kept one. -/
theorem dedupe_threshold_semantics :
    (∃ (l : List InspectionFact) (t1 t2 : ℚ), t1 ≤ t2 ∧
        (dedupe_facts inspection_statement t2 l).length <
          (dedupe_facts inspection_statement t1 l).length) ∧
    (∀ (α : Type) (stmtFn : α → String) (facts : List α),
        dedupe_facts stmtFn 1 facts = dedupe_exact stmtFn facts) := by
  constructor
  · refine ⟨monotonicityFacts, 4/9, 8/13, by norm_num, ?_⟩
    have e1 : (dedupe_facts inspection_statement ((4 : ℚ)/9) monotonicityFacts).length = 3 := by
      with_unfolding_all rfl
    have e2 : (dedupe_facts inspection_statement ((8 : ℚ)/13) monotonicityFacts).length = 2 := by
      with_unfolding_all rfl
    rw [e1, e2]
    norm_num
  · intro α stmtFn facts
    exact dedupe_go_one stmtFn facts []

/-! ### Trim idempotence and the display/key correspondence -/

theorem dropWhile_idem {α : Type} (p : α → Bool) (l : List α) :
    (l.dropWhile p).dropWhile p = l.dropWhile p := by
  induction l with
  | nil => rfl
  | cons x xs ih =>
    by_cases h : p x = true
    · rw [List.dropWhile_cons_of_pos h]
      exact ih
    · rw [List.dropWhile_cons_of_neg h, List.dropWhile_cons_of_neg h]

theorem head_false_of_dropWhile_eq {α : Type} (p : α → Bool) (x : α) (r : List α)
    (h : (x :: r).dropWhile p = x :: r) : p x = false := by
  by_cases hx : p x = true
  · rw [List.dropWhile_cons_of_pos hx] at h
    have hlen : (r.dropWhile p).length ≤ r.length := (List.dropWhile_suffix p).sublist.length_le
    have := congrArg List.length h
    simp only [List.length_cons] at this
    omega
  · exact Bool.eq_false_iff.mpr hx

theorem prefix_dropWhile_eq {α : Type} (p : α → Bool) (E D : List α) (hpre : E <+: D)
    (hD : D.dropWhile p = D) : E.dropWhile p = E := by
  cases E with
  | nil => rfl
  | cons x E2 =>
    obtain ⟨t, ht⟩ := hpre
    subst ht
    have hx : p x = false := head_false_of_dropWhile_eq p x (E2 ++ t) hD
    rw [List.dropWhile_cons_of_neg (by simp [hx])]

theorem trim_no_lead (l : List Char) :
    (trimChars l).dropWhile (fun c => isWsChar c) = trimChars l := by
  have hD : (l.dropWhile (fun c => isWsChar c)).dropWhile (fun c => isWsChar c) =
      l.dropWhile (fun c => isWsChar c) := dropWhile_idem _ l
  apply prefix_dropWhile_eq _ _ (l.dropWhile (fun c => isWsChar c)) ?_ hD
  have hp : (((l.dropWhile (fun c => isWsChar c)).reverse.dropWhile
      (fun c => isWsChar c)).reverse) <+: (l.dropWhile (fun c => isWsChar c)).reverse.reverse :=
    List.reverse_prefix.mpr (List.dropWhile_suffix _)
  rw [List.reverse_reverse] at hp
  exact hp

theorem trim_no_trail (l : List Char) :
    (trimChars l).reverse.dropWhile (fun c => isWsChar c) = (trimChars l).reverse := by
  have hrr : (trimChars l).reverse =
      ((l.dropWhile (fun c => isWsChar c)).reverse).dropWhile (fun c => isWsChar c) :=
    List.reverse_reverse _
  rw [hrr]
  exact dropWhile_idem _ _

theorem trim_trim (l : List Char) : trimChars (trimChars l) = trimChars l := by
  show (((trimChars l).dropWhile (fun c => isWsChar c)).reverse.dropWhile
    (fun c => isWsChar c)).reverse = trimChars l
  rw [trim_no_lead, trim_no_trail, List.reverse_reverse]

set_option maxRecDepth 4000 in
/-- The display label stored by `ensure_area` normalizes back to the group
key, for every raw area input. -/
theorem normalize_area_displayOf (raw : String) :
    normalize_area (displayOf raw) = normalize_area raw := by
  by_cases h : area_sentinel raw
  · have hr : normalize_area raw = "not_available" := normalize_area_reserved_key.1 raw h
    rw [display_label_not_available raw h, hr]
    decide
  · have h' : ¬ (trimChars raw.data = [] ∨
        lowerChars (trimChars raw.data) = "not available".data) := h
    push_neg at h'
    have hne : (⟨trimChars raw.data⟩ : String) ≠ "" :=
      fun hcon => h'.1 (congrArg String.data hcon)
    simp only [displayOf]
    rw [if_neg hne, if_neg h'.2]
    simp only [normalize_area, trim_trim]

/-! ### Grouping invariants of the merge orchestrator -/

/-- Invariant of each group of `area_map`: the display label normalizes to the
group key, and every stored fact belongs to the group of its own area. -/
def GroupInv (g : RawGroup) : Prop :=
  normalize_area g.display = g.key ∧
    (∀ f ∈ g.insp, normalize_area f.area = g.key) ∧
    (∀ f ∈ g.therm, normalize_area f.area = g.key)

def keysOf (gs : List RawGroup) : List String := gs.map (fun g => g.key)

theorem keysOf_cons (g : RawGroup) (gs : List RawGroup) :
    keysOf (g :: gs) = g.key :: keysOf gs := rfl

theorem addInsp_cons (g : RawGroup) (gs : List RawGroup) (f : InspectionFact) :
    addInsp (g :: gs) f = if g.key = normalize_area f.area then
      (⟨g.key, g.display, g.insp ++ [f], g.therm⟩ : RawGroup) :: gs
    else g :: addInsp gs f := rfl

theorem addTherm_cons (g : RawGroup) (gs : List RawGroup) (f : ThermalFact) :
    addTherm (g :: gs) f = if g.key = normalize_area f.area then
      (⟨g.key, g.display, g.insp, g.therm ++ [f]⟩ : RawGroup) :: gs
    else g :: addTherm gs f := rfl

theorem addInsp_keys (gs : List RawGroup) (f : InspectionFact) :
    keysOf (addInsp gs f) = if normalize_area f.area ∈ keysOf gs then keysOf gs
      else keysOf gs ++ [normalize_area f.area] := by
  induction gs with
  | nil => simp [addInsp, keysOf]
  | cons g gs' ih =>
    rw [addInsp_cons]
    by_cases h : g.key = normalize_area f.area
    · rw [if_pos h]
      have hmem : normalize_area f.area ∈ keysOf (g :: gs') := by
        rw [keysOf_cons, ← h]
        exact List.mem_cons_self _ _
      rw [if_pos hmem]
      rfl
    · rw [if_neg h, keysOf_cons, keysOf_cons, ih]
      by_cases hm : normalize_area f.area ∈ keysOf gs'
      · rw [if_pos hm, if_pos (List.mem_cons_of_mem _ hm)]
      · have hnm : normalize_area f.area ∉ keysOf (g :: gs') := by
          intro hc
          rcases List.mem_cons.mp hc with hc | hc
          · exact h hc.symm
          · exact hm hc
        rw [if_neg hm, if_neg (by rw [keysOf_cons] at hnm; exact hnm)]
        rfl

theorem addTherm_keys (gs : List RawGroup) (f : ThermalFact) :
    keysOf (addTherm gs f) = if normalize_area f.area ∈ keysOf gs then keysOf gs
      else keysOf gs ++ [normalize_area f.area] := by
  induction gs with
  | nil => simp [addTherm, keysOf]
  | cons g gs' ih =>
    rw [addTherm_cons]
    by_cases h : g.key = normalize_area f.area
    · rw [if_pos h]
      have hmem : normalize_area f.area ∈ keysOf (g :: gs') := by
        rw [keysOf_cons, ← h]
        exact List.mem_cons_self _ _
      rw [if_pos hmem]
      rfl
    · rw [if_neg h, keysOf_cons, keysOf_cons, ih]
      by_cases hm : normalize_area f.area ∈ keysOf gs'
      · rw [if_pos hm, if_pos (List.mem_cons_of_mem _ hm)]
      · have hnm : normalize_area f.area ∉ keysOf (g :: gs') := by
          intro hc
          rcases List.mem_cons.mp hc with hc | hc
          · exact h hc.symm
          · exact hm hc
        rw [if_neg hm, if_neg (by rw [keysOf_cons] at hnm; exact hnm)]
        rfl

theorem keys_snoc_nodup (l : List String) (x : String) (hl : l.Nodup) (hx : x ∉ l) :
    (l ++ [x]).Nodup := by
  rw [List.nodup_append]
  exact ⟨hl, List.nodup_singleton _, fun a ha hb => hx ((List.mem_singleton.mp hb) ▸ ha)⟩

theorem addInsp_nodup (gs : List RawGroup) (f : InspectionFact)
    (h : (keysOf gs).Nodup) : (keysOf (addInsp gs f)).Nodup := by
  rw [addInsp_keys]
  by_cases hm : normalize_area f.area ∈ keysOf gs
  · rw [if_pos hm]; exact h
  · rw [if_neg hm]; exact keys_snoc_nodup _ _ h hm

theorem addTherm_nodup (gs : List RawGroup) (f : ThermalFact)
    (h : (keysOf gs).Nodup) : (keysOf (addTherm gs f)).Nodup := by
  rw [addTherm_keys]
  by_cases hm : normalize_area f.area ∈ keysOf gs
  · rw [if_pos hm]; exact h
  · rw [if_neg hm]; exact keys_snoc_nodup _ _ h hm

theorem addInsp_key_mem (gs : List RawGroup) (f : InspectionFact) (k : String) :
    k ∈ keysOf (addInsp gs f) ↔ k ∈ keysOf gs ∨ k = normalize_area f.area := by
  rw [addInsp_keys]
  by_cases hm : normalize_area f.area ∈ keysOf gs
  · rw [if_pos hm]
    constructor
    · exact Or.inl
    · rintro (h | rfl)
      · exact h
      · exact hm
  · rw [if_neg hm]
    simp [List.mem_append]

theorem addTherm_key_mem (gs : List RawGroup) (f : ThermalFact) (k : String) :
    k ∈ keysOf (addTherm gs f) ↔ k ∈ keysOf gs ∨ k = normalize_area f.area := by
  rw [addTherm_keys]
  by_cases hm : normalize_area f.area ∈ keysOf gs
  · rw [if_pos hm]
    constructor
    · exact Or.inl
    · rintro (h | rfl)
      · exact h
      · exact hm
  · rw [if_neg hm]
    simp [List.mem_append]

theorem addInsp_inv (gs : List RawGroup) (f : InspectionFact)
    (h : ∀ g ∈ gs, GroupInv g) : ∀ g ∈ addInsp gs f, GroupInv g := by
  induction gs with
  | nil =>
    intro g hg
    rcases List.mem_singleton.mp hg with rfl
    refine ⟨normalize_area_displayOf f.area, ?_, ?_⟩
    · intro f2 hf2
      rcases List.mem_singleton.mp hf2 with rfl
      rfl
    · intro f2 hf2
      cases hf2
  | cons g0 gs' ih =>
    intro g hg
    rw [addInsp_cons] at hg
    by_cases hk : g0.key = normalize_area f.area
    · rw [if_pos hk] at hg
      rcases List.mem_cons.mp hg with rfl | hg'
      · obtain ⟨h1, h2, h3⟩ := h g0 (List.mem_cons_self _ _)
        refine ⟨h1, ?_, h3⟩
        intro f2 hf2
        rcases List.mem_append.mp hf2 with hf2 | hf2
        · exact h2 f2 hf2
        · rcases List.mem_singleton.mp hf2 with rfl
          exact hk.symm
      · exact h g (List.mem_cons_of_mem _ hg')
    · rw [if_neg hk] at hg
      rcases List.mem_cons.mp hg with rfl | hg'
      · exact h g (List.mem_cons_self _ _)
      · exact ih (fun g2 hg2 => h g2 (List.mem_cons_of_mem _ hg2)) g hg'

theorem addTherm_inv (gs : List RawGroup) (f : ThermalFact)
    (h : ∀ g ∈ gs, GroupInv g) : ∀ g ∈ addTherm gs f, GroupInv g := by
  induction gs with
  | nil =>
    intro g hg
    rcases List.mem_singleton.mp hg with rfl
    refine ⟨normalize_area_displayOf f.area, ?_, ?_⟩
    · intro f2 hf2
      cases hf2
    · intro f2 hf2
      rcases List.mem_singleton.mp hf2 with rfl
      rfl
  | cons g0 gs' ih =>
    intro g hg
    rw [addTherm_cons] at hg
    by_cases hk : g0.key = normalize_area f.area
    · rw [if_pos hk] at hg
      rcases List.mem_cons.mp hg with rfl | hg'
      · obtain ⟨h1, h2, h3⟩ := h g0 (List.mem_cons_self _ _)
        refine ⟨h1, h2, ?_⟩
        intro f2 hf2
        rcases List.mem_append.mp hf2 with hf2 | hf2
        · exact h3 f2 hf2
        · rcases List.mem_singleton.mp hf2 with rfl
          exact hk.symm
      · exact h g (List.mem_cons_of_mem _ hg')
    · rw [if_neg hk] at hg
      rcases List.mem_cons.mp hg with rfl | hg'
      · exact h g (List.mem_cons_self _ _)
      · exact ih (fun g2 hg2 => h g2 (List.mem_cons_of_mem _ hg2)) g hg'

theorem fold_addInsp_good (l : List InspectionFact) (gs : List RawGroup)
    (h : (keysOf gs).Nodup ∧ ∀ g ∈ gs, GroupInv g) :
    (keysOf (l.foldl addInsp gs)).Nodup ∧ ∀ g ∈ l.foldl addInsp gs, GroupInv g :=
  foldl_inv (fun acc => (keysOf acc).Nodup ∧ ∀ g ∈ acc, GroupInv g) addInsp l gs h
    (fun acc f _ hacc => ⟨addInsp_nodup acc f hacc.1, addInsp_inv acc f hacc.2⟩)

theorem fold_addTherm_good (l : List ThermalFact) (gs : List RawGroup)
    (h : (keysOf gs).Nodup ∧ ∀ g ∈ gs, GroupInv g) :
    (keysOf (l.foldl addTherm gs)).Nodup ∧ ∀ g ∈ l.foldl addTherm gs, GroupInv g :=
  foldl_inv (fun acc => (keysOf acc).Nodup ∧ ∀ g ∈ acc, GroupInv g) addTherm l gs h
    (fun acc f _ hacc => ⟨addTherm_nodup acc f hacc.1, addTherm_inv acc f hacc.2⟩)

theorem fold_addInsp_mem (l : List InspectionFact) :
    ∀ (gs : List RawGroup) (k : String),
      k ∈ keysOf (l.foldl addInsp gs) ↔
        k ∈ keysOf gs ∨ k ∈ l.map (fun f => normalize_area f.area) := by
  induction l with
  | nil =>
    intro gs k
    simp
  | cons f fs ih =>
    intro gs k
    rw [List.foldl_cons, ih (addInsp gs f) k, addInsp_key_mem]
    simp only [List.map_cons, List.mem_cons]
    tauto

theorem fold_addTherm_mem (l : List ThermalFact) :
    ∀ (gs : List RawGroup) (k : String),
      k ∈ keysOf (l.foldl addTherm gs) ↔
        k ∈ keysOf gs ∨ k ∈ l.map (fun f => normalize_area f.area) := by
  induction l with
  | nil =>
    intro gs k
    simp
  | cons f fs ih =>
    intro gs k
    rw [List.foldl_cons, ih (addTherm gs f) k, addTherm_key_mem]
    simp only [List.map_cons, List.mem_cons]
    tauto

/-! ### Sorting of the groups -/

theorem insertGroup_cons (g h : RawGroup) (t : List RawGroup) :
    insertGroup g (h :: t) =
      if g.key ≤ h.key then g :: h :: t else h :: insertGroup g t := rfl

theorem insertGroup_perm (g : RawGroup) : ∀ gs : List RawGroup,
    (insertGroup g gs).Perm (g :: gs) := by
  intro gs
  induction gs with
  | nil => exact List.Perm.refl _
  | cons h t ih =>
    rw [insertGroup_cons]
    by_cases hle : g.key ≤ h.key
    · rw [if_pos hle]
    · rw [if_neg hle]
      exact (ih.cons h).trans (List.Perm.swap g h t)

theorem sortGroups_perm : ∀ gs : List RawGroup, (sortGroups gs).Perm gs := by
  intro gs
  induction gs with
  | nil => exact List.Perm.refl _
  | cons g t ih =>
    show (insertGroup g (sortGroups t)).Perm (g :: t)
    exact (insertGroup_perm g (sortGroups t)).trans (ih.cons g)

theorem insertGroup_sorted (g : RawGroup) : ∀ gs : List RawGroup,
    List.Pairwise (fun a b : RawGroup => a.key ≤ b.key) gs →
      List.Pairwise (fun a b : RawGroup => a.key ≤ b.key) (insertGroup g gs) := by
  intro gs
  induction gs with
  | nil =>
    intro _
    exact List.pairwise_singleton _ _
  | cons h t ih =>
    intro hp
    rw [List.pairwise_cons] at hp
    obtain ⟨hhall, hpt⟩ := hp
    rw [insertGroup_cons]
    by_cases hle : g.key ≤ h.key
    · rw [if_pos hle, List.pairwise_cons]
      refine ⟨?_, List.pairwise_cons.mpr ⟨hhall, hpt⟩⟩
      intro x hx
      rcases List.mem_cons.mp hx with rfl | hx
      · exact hle
      · exact le_trans hle (hhall x hx)
    · rw [if_neg hle, List.pairwise_cons]
      refine ⟨?_, ih hpt⟩
      intro x hx
      have hx' := (insertGroup_perm g t).mem_iff.mp hx
      rcases List.mem_cons.mp hx' with rfl | hx'
      · exact le_of_not_le hle
      · exact hhall x hx'

theorem sortGroups_sorted : ∀ gs : List RawGroup,
    List.Pairwise (fun a b : RawGroup => a.key ≤ b.key) (sortGroups gs) := by
  intro gs
  induction gs with
  | nil => exact List.Pairwise.nil
  | cons g t ih => exact insertGroup_sorted g (sortGroups t) ih

/-! ### Keys of the merged output -/

theorem map_congr_mem {α β : Type} (f g : α → β) (l : List α) (h : ∀ a ∈ l, f a = g a) :
    l.map f = l.map g := by
  induction l with
  | nil => rfl
  | cons x xs ih =>
    simp only [List.map_cons, h x (by simp), ih (fun a ha => h a (by simp [ha]))]

/-- The groups built by the two grouping loops of `merge_and_dedupe`. -/
def mergeGroups (inspection : Option InspectionFactsDoc)
    (thermal : Option ThermalFactsDoc) : List RawGroup :=
  (thermFactsOf thermal).foldl addTherm ((inspFactsOf inspection).foldl addInsp [])

theorem merged_areas_eq (i : Option InspectionFactsDoc) (t : Option ThermalFactsDoc) (q : ℚ) :
    (merge_and_dedupe i t q).merged_areas = (sortGroups (mergeGroups i t)).map (build_entry q) :=
  rfl

theorem mergeGroups_good (i : Option InspectionFactsDoc) (t : Option ThermalFactsDoc) :
    (keysOf (mergeGroups i t)).Nodup ∧ ∀ g ∈ mergeGroups i t, GroupInv g :=
  fold_addTherm_good _ _ (fold_addInsp_good _ []
    ⟨List.nodup_nil, fun g hg => absurd hg (List.not_mem_nil g)⟩)

theorem mergeGroups_key_mem (i : Option InspectionFactsDoc) (t : Option ThermalFactsDoc)
    (k : String) :
    k ∈ keysOf (mergeGroups i t) ↔
      k ∈ (inspFactsOf i).map (fun f => normalize_area f.area) ∨
        k ∈ (thermFactsOf t).map (fun f => normalize_area f.area) := by
  unfold mergeGroups
  rw [fold_addTherm_mem, fold_addInsp_mem]
  simp only [keysOf, List.map_nil, List.not_mem_nil, false_or]

theorem merge_keys_eq (i : Option InspectionFactsDoc) (t : Option ThermalFactsDoc) (q : ℚ) :
    (merge_and_dedupe i t q).merged_areas.map (fun e => normalize_area e.area) =
      keysOf (sortGroups (mergeGroups i t)) := by
  rw [merged_areas_eq, List.map_map]
  apply map_congr_mem
  intro g hg
  have hinv := (mergeGroups_good i t).2 g ((sortGroups_perm _).mem_iff.mp hg)
  show normalize_area (build_entry q g).area = g.key
  exact hinv.1

theorem merge_keys_nodup (i : Option InspectionFactsDoc) (t : Option ThermalFactsDoc) (q : ℚ) :
    ((merge_and_dedupe i t q).merged_areas.map (fun e => normalize_area e.area)).Nodup := by
  rw [merge_keys_eq]
  have hperm : (keysOf (sortGroups (mergeGroups i t))).Perm (keysOf (mergeGroups i t)) :=
    (sortGroups_perm (mergeGroups i t)).map (fun g : RawGroup => g.key)
  exact hperm.nodup_iff.mpr (mergeGroups_good i t).1

theorem merge_keys_mem (i : Option InspectionFactsDoc) (t : Option ThermalFactsDoc) (q : ℚ)
    (k : String) :
    k ∈ (merge_and_dedupe i t q).merged_areas.map (fun e => normalize_area e.area) ↔
      k ∈ (inspFactsOf i).map (fun f => normalize_area f.area) ∨
        k ∈ (thermFactsOf t).map (fun f => normalize_area f.area) := by
  have hperm : (keysOf (sortGroups (mergeGroups i t))).Perm (keysOf (mergeGroups i t)) :=
    (sortGroups_perm (mergeGroups i t)).map (fun g : RawGroup => g.key)
  rw [merge_keys_eq, hperm.mem_iff]
  exact mergeGroups_key_mem i t k

theorem merge_keys_sorted (i : Option InspectionFactsDoc) (t : Option ThermalFactsDoc) (q : ℚ) :
    List.Pairwise (fun a b : String => a < b)
      ((merge_and_dedupe i t q).merged_areas.map (fun e => normalize_area e.area)) := by
  rw [merge_keys_eq]
  have hs := sortGroups_sorted (mergeGroups i t)
  have hperm : (keysOf (sortGroups (mergeGroups i t))).Perm (keysOf (mergeGroups i t)) :=
    (sortGroups_perm (mergeGroups i t)).map (fun g : RawGroup => g.key)
  have hn : (keysOf (sortGroups (mergeGroups i t))).Nodup :=
    hperm.nodup_iff.mpr (mergeGroups_good i t).1
  have hle : List.Pairwise (fun a b : String => a ≤ b) (keysOf (sortGroups (mergeGroups i t))) :=
    List.pairwise_map.mpr hs
  exact (hle.and hn).imp (fun hab => lt_of_le_of_ne hab.1 hab.2)

theorem merge_entry_facts (i : Option InspectionFactsDoc) (t : Option ThermalFactsDoc) (q : ℚ) :
    ∀ e ∈ (merge_and_dedupe i t q).merged_areas,
      (∀ f ∈ e.inspection_facts, normalize_area f.area = normalize_area e.area) ∧
        (∀ f ∈ e.thermal_facts, normalize_area f.area = normalize_area e.area) := by
  intro e he
  rw [merged_areas_eq] at he
  obtain ⟨g, hg, rfl⟩ := List.mem_map.mp he
  have hinv := (mergeGroups_good i t).2 g ((sortGroups_perm _).mem_iff.mp hg)
  have harea : normalize_area (build_entry q g).area = g.key := hinv.1
  constructor
  · intro f hf
    have hsub : (build_entry q g).inspection_facts.Sublist g.insp :=
      dedupe_go_sublist inspection_statement q g.insp []
    rw [harea]
    exact hinv.2.1 f (hsub.subset hf)
  · intro f hf
    have hsub : (build_entry q g).thermal_facts.Sublist g.therm :=
      dedupe_go_sublist thermal_statement q g.therm []
    rw [harea]
    exact hinv.2.2 f (hsub.subset hf)

/-! ### C1: area partition of the merged output -/

def kitchenWetWall : InspectionFact := obsFact "Kitchen" "wet wall"

def kitchenWetWalls : InspectionFact := obsFact "Kitchen" "wet walls"

set_option maxRecDepth 8000 in
/-- C1 counterexample: with input facts in area "Kitchen", the output display
label is "Kitchen" while the distinct normalized input label is "kitchen", so
the two label sets differ; moreover the near-duplicate second fact is removed
by de-duplication and therefore appears in no Area Group of the output. -/
theorem merge_labels_counterexample :
    ((merge_and_dedupe (some ⟨[kitchenWetWall, kitchenWetWalls], []⟩) none
        (92/100)).merged_areas.map (fun e => e.area)) = ["Kitchen"] ∧
    ([kitchenWetWall, kitchenWetWalls].map (fun f => normalize_area f.area)) =
      ["kitchen", "kitchen"] ∧
    ("Kitchen" : String) ≠ "kitchen" ∧
    ((merge_and_dedupe (some ⟨[kitchenWetWall, kitchenWetWalls], []⟩) none
        (92/100)).merged_areas.map (fun e => e.inspection_facts)) = [[kitchenWetWall]] ∧
    kitchenWetWalls ≠ kitchenWetWall :=
  ⟨by with_unfolding_all rfl, by with_unfolding_all rfl, by decide,
   by with_unfolding_all rfl, by decide⟩

/-- C1 (amended): the output keys are distinct; every input fact is assigned
to exactly one Area Group, namely the one whose normalized key is the fact's
normalized area (though de-duplication may drop near-duplicate facts from the
group's retained list); the set of output normalized keys is exactly the set
of distinct normalized input area labels; and every retained fact sits in the
group matching its own normalized area. -/
theorem merge_area_partition (inspection : Option InspectionFactsDoc)
    (thermal : Option ThermalFactsDoc) (q : ℚ) :
    ((merge_and_dedupe inspection thermal q).merged_areas.map
        (fun e => normalize_area e.area)).Nodup ∧
    (∀ f ∈ inspFactsOf inspection, normalize_area f.area ∈
        (merge_and_dedupe inspection thermal q).merged_areas.map
          (fun e => normalize_area e.area)) ∧
    (∀ f ∈ thermFactsOf thermal, normalize_area f.area ∈
        (merge_and_dedupe inspection thermal q).merged_areas.map
          (fun e => normalize_area e.area)) ∧
    (∀ k : String, k ∈ (merge_and_dedupe inspection thermal q).merged_areas.map
        (fun e => normalize_area e.area) ↔
      k ∈ (inspFactsOf inspection).map (fun f => normalize_area f.area) ∨
        k ∈ (thermFactsOf thermal).map (fun f => normalize_area f.area)) ∧
    (∀ e ∈ (merge_and_dedupe inspection thermal q).merged_areas,
      (∀ f ∈ e.inspection_facts, normalize_area f.area = normalize_area e.area) ∧
        (∀ f ∈ e.thermal_facts, normalize_area f.area = normalize_area e.area)) := by
  refine ⟨merge_keys_nodup inspection thermal q, ?_, ?_,
    merge_keys_mem inspection thermal q, merge_entry_facts inspection thermal q⟩
  · intro f hf
    exact (merge_keys_mem inspection thermal q _).mpr (Or.inl (List.mem_map_of_mem _ hf))
  · intro f hf
    exact (merge_keys_mem inspection thermal q _).mpr (Or.inr (List.mem_map_of_mem _ hf))

theorem merge_area_partition_witness :
    normalize_area laundryFact.area ∈
      ((merge_and_dedupe (some ⟨[laundryFact], []⟩) none (92/100)).merged_areas.map
        (fun e => normalize_area e.area)) :=
  (merge_area_partition (some ⟨[laundryFact], []⟩) none (92/100)).2.1 laundryFact
    (List.mem_singleton.mpr rfl)

/-! ### C7: the output is sorted by normalized key -/

theorem pairwise_lt_ext : ∀ (l1 l2 : List String),
    List.Pairwise (fun a b : String => a < b) l1 →
    List.Pairwise (fun a b : String => a < b) l2 →
    (∀ k, k ∈ l1 ↔ k ∈ l2) → l1 = l2 := by
  intro l1
  induction l1 with
  | nil =>
    intro l2 _ _ hmem
    cases l2 with
    | nil => rfl
    | cons b t2 => exact absurd ((hmem b).mpr (List.mem_cons_self _ _)) (List.not_mem_nil b)
  | cons a t1 ih =>
    intro l2 h1 h2 hmem
    cases l2 with
    | nil => exact absurd ((hmem a).mp (List.mem_cons_self _ _)) (List.not_mem_nil a)
    | cons b t2 =>
      rw [List.pairwise_cons] at h1 h2
      have hab : a = b := by
        have ha : a ∈ b :: t2 := (hmem a).mp (List.mem_cons_self _ _)
        have hb : b ∈ a :: t1 := (hmem b).mpr (List.mem_cons_self _ _)
        rcases List.mem_cons.mp ha with h | h
        · exact h
        · rcases List.mem_cons.mp hb with h' | h'
          · exact h'.symm
          · exact absurd (lt_trans (h2.1 a h) (h1.1 b h')) (lt_irrefl b)
      subst hab
      congr 1
      apply ih t2 h1.2 h2.2
      intro k
      constructor
      · intro hk
        have hk2 := (hmem k).mp (List.mem_cons_of_mem _ hk)
        rcases List.mem_cons.mp hk2 with rfl | h
        · exact absurd (h1.1 k hk) (lt_irrefl k)
        · exact h
      · intro hk
        have hk2 := (hmem k).mpr (List.mem_cons_of_mem _ hk)
        rcases List.mem_cons.mp hk2 with rfl | h
        · exact absurd (h2.1 k hk) (lt_irrefl k)
        · exact h

/-- C7: the `merged_areas` sequence is sorted strictly ascending by normalized
area key (lexicographic String order, as Python's `sorted`), and the sequence
of normalized keys does not depend on the order of the facts in the inputs nor
on the threshold. -/
theorem merge_sorted_by_key (inspection : Option InspectionFactsDoc)
    (thermal : Option ThermalFactsDoc) (q : ℚ) :
    List.Pairwise (fun e1 e2 : MergedAreaEntry =>
        normalize_area e1.area < normalize_area e2.area)
      (merge_and_dedupe inspection thermal q).merged_areas ∧
    (∀ (inspection2 : Option InspectionFactsDoc) (thermal2 : Option ThermalFactsDoc) (q2 : ℚ),
      (inspFactsOf inspection2).Perm (inspFactsOf inspection) →
      (thermFactsOf thermal2).Perm (thermFactsOf thermal) →
      (merge_and_dedupe inspection2 thermal2 q2).merged_areas.map
          (fun e => normalize_area e.area) =
        (merge_and_dedupe inspection thermal q).merged_areas.map
          (fun e => normalize_area e.area)) := by
  constructor
  · exact List.pairwise_map.mp (merge_keys_sorted inspection thermal q)
  · intro i2 t2 q2 hpi hpt
    apply pairwise_lt_ext _ _ (merge_keys_sorted i2 t2 q2) (merge_keys_sorted inspection thermal q)
    intro k
    rw [merge_keys_mem, merge_keys_mem]
    constructor
    · rintro (h | h)
      · exact Or.inl ((hpi.map (fun f => normalize_area f.area)).mem_iff.mp h)
      · exact Or.inr ((hpt.map (fun f => normalize_area f.area)).mem_iff.mp h)
    · rintro (h | h)
      · exact Or.inl ((hpi.map (fun f => normalize_area f.area)).mem_iff.mpr h)
      · exact Or.inr ((hpt.map (fun f => normalize_area f.area)).mem_iff.mpr h)

theorem merge_sorted_by_key_witness :
    ((merge_and_dedupe (some ⟨[laundryFact], []⟩) none 1).merged_areas.map
        (fun e => normalize_area e.area)) =
      ((merge_and_dedupe (some ⟨[laundryFact], []⟩) none (92/100)).merged_areas.map
        (fun e => normalize_area e.area)) :=
  (merge_sorted_by_key (some ⟨[laundryFact], []⟩) none (92/100)).2
    (some ⟨[laundryFact], []⟩) none 1 (List.Perm.refl _) (List.Perm.refl _)

/-! ### Word-splitting algebra for the normalizer -/

theorem wordsAux_nil_arg (cur : List Char) :
    wordsAux cur [] = if cur = [] then [] else [cur.reverse] := rfl

theorem wordsAux_cons (cur : List Char) (c : Char) (cs : List Char) :
    wordsAux cur (c :: cs) = if isWsChar c then
      (if cur = [] then wordsAux [] cs else cur.reverse :: wordsAux [] cs)
    else wordsAux (c :: cur) cs := rfl

theorem wordsAux_append_ws (c : Char) (hc : isWsChar c = true) (y : List Char) :
    ∀ (x cur : List Char),
      wordsAux cur (x ++ c :: y) = wordsAux cur x ++ wordsAux [] y := by
  intro x
  induction x with
  | nil =>
    intro cur
    show wordsAux cur (c :: y) = wordsAux cur [] ++ wordsAux [] y
    rw [wordsAux_cons, if_pos hc, wordsAux_nil_arg]
    by_cases hcur : cur = []
    · rw [if_pos hcur, if_pos hcur, List.nil_append]
    · rw [if_neg hcur, if_neg hcur, List.singleton_append]
  | cons a x2 ih =>
    intro cur
    show wordsAux cur (a :: (x2 ++ c :: y)) = wordsAux cur (a :: x2) ++ wordsAux [] y
    rw [wordsAux_cons, wordsAux_cons]
    by_cases ha : isWsChar a = true
    · rw [if_pos ha, if_pos ha]
      by_cases hcur : cur = []
      · rw [if_pos hcur, if_pos hcur]
        exact ih []
      · rw [if_neg hcur, if_neg hcur, List.cons_append, ih []]
    · rw [if_neg ha, if_neg ha]
      exact ih (a :: cur)

theorem splitWs_ws_cons (c : Char) (l : List Char) (hc : isWsChar c = true) :
    splitWs (c :: l) = splitWs l := by
  show wordsAux [] (c :: l) = wordsAux [] l
  rw [wordsAux_cons, if_pos hc, if_pos rfl]

theorem splitWs_append_ws (l r : List Char) (c : Char) (hc : isWsChar c = true) :
    splitWs (l ++ c :: r) = splitWs l ++ splitWs r :=
  wordsAux_append_ws c hc r l []

theorem splitWs_all_ws (l : List Char) (h : ∀ c ∈ l, isWsChar c = true) :
    splitWs l = [] := by
  induction l with
  | nil => rfl
  | cons c cs ih =>
    rw [splitWs_ws_cons c cs (h c (by simp))]
    exact ih (fun c2 hc2 => h c2 (by simp [hc2]))

theorem splitWs_ws_lead (P l : List Char) (hP : ∀ c ∈ P, isWsChar c = true) :
    splitWs (P ++ l) = splitWs l := by
  induction P with
  | nil => rfl
  | cons c P2 ih =>
    rw [List.cons_append, splitWs_ws_cons c _ (hP c (by simp))]
    exact ih (fun c2 hc2 => hP c2 (by simp [hc2]))

theorem splitWs_ws_suffix (S l : List Char) (hS : ∀ c ∈ S, isWsChar c = true) :
    splitWs (l ++ S) = splitWs l := by
  cases S with
  | nil => rw [List.append_nil]
  | cons c S2 =>
    rw [splitWs_append_ws l S2 c (hS c (by simp)),
      splitWs_all_ws S2 (fun c2 hc2 => hS c2 (by simp [hc2])), List.append_nil]

theorem joinWords_cons₂ (w b : List Char) (t : List (List Char)) :
    joinWords (w :: b :: t) = w ++ ' ' :: joinWords (b :: t) := rfl

theorem joinWords_append (A B : List (List Char)) (hA : A ≠ []) (hB : B ≠ []) :
    joinWords (A ++ B) = joinWords A ++ ' ' :: joinWords B := by
  induction A with
  | nil => exact absurd rfl hA
  | cons w A2 ih =>
    cases A2 with
    | nil =>
      cases B with
      | nil => exact absurd rfl hB
      | cons b B2 =>
        rw [List.singleton_append, joinWords_cons₂]
        rfl
    | cons w2 A3 =>
      rw [List.cons_append, joinWords_cons₂]
      show joinWords (w :: ((w2 :: A3) ++ B)) = _
      rw [List.cons_append]
      have hne : (w2 :: A3) ++ B ≠ [] := by simp
      show w ++ ' ' :: joinWords ((w2 :: A3) ++ B) = _
      rw [ih (by simp)]
      simp [joinWords_cons₂, List.append_assoc]

theorem trim_decomp (l : List Char) :
    ∃ P S, l = P ++ trimChars l ++ S ∧ (∀ c ∈ P, isWsChar c = true) ∧
      (∀ c ∈ S, isWsChar c = true) := by
  refine ⟨l.takeWhile (fun c => isWsChar c),
    ((l.dropWhile (fun c => isWsChar c)).reverse.takeWhile (fun c => isWsChar c)).reverse,
    ?_, ?_, ?_⟩
  · have h1 : l = l.takeWhile (fun c => isWsChar c) ++ l.dropWhile (fun c => isWsChar c) :=
      (List.takeWhile_append_dropWhile _ _).symm
    have h2 : l.dropWhile (fun c => isWsChar c) = trimChars l ++
        ((l.dropWhile (fun c => isWsChar c)).reverse.takeWhile (fun c => isWsChar c)).reverse := by
      have h3 : (l.dropWhile (fun c => isWsChar c)).reverse =
          (l.dropWhile (fun c => isWsChar c)).reverse.takeWhile (fun c => isWsChar c) ++
            (l.dropWhile (fun c => isWsChar c)).reverse.dropWhile (fun c => isWsChar c) :=
        (List.takeWhile_append_dropWhile _ _).symm
      have h4 := congrArg List.reverse h3
      rw [List.reverse_reverse, List.reverse_append] at h4
      exact h4
    rw [List.append_assoc, ← h2]
    exact h1
  · intro c hc
    exact List.mem_takeWhile_imp hc
  · intro c hc
    rw [List.mem_reverse] at hc
    exact List.mem_takeWhile_imp hc

theorem ws_normCharMap (c : Char) (h : isWsChar c = true) :
    isWsChar (normCharMap c) = true := by
  have h' := of_decide_eq_true h
  rcases h' with rfl | rfl | rfl | rfl | h11 | h12
  · decide
  · decide
  · decide
  · decide
  · have hctrl : isCtrlChar c = true := decide_eq_true (Or.inr (Or.inl h11))
    simp only [normCharMap, ctrlToSpace, hctrl, if_true]
    decide
  · have hctrl : isCtrlChar c = true := decide_eq_true (Or.inr (Or.inr (Or.inl h12)))
    simp only [normCharMap, ctrlToSpace, hctrl, if_true]
    decide

theorem splitWs_map_trim (l : List Char) :
    splitWs ((trimChars l).map normCharMap) = splitWs (l.map normCharMap) := by
  obtain ⟨P, S, hdec, hP, hS⟩ := trim_decomp l
  conv_rhs => rw [hdec]
  rw [List.map_append, List.map_append]
  rw [splitWs_ws_suffix (S.map normCharMap) _ ?_]
  · rw [splitWs_ws_lead (P.map normCharMap) _ ?_]
    intro c hc
    obtain ⟨c0, hc0, rfl⟩ := List.mem_map.mp hc
    exact ws_normCharMap c0 (hP c0 hc0)
  · intro c hc
    obtain ⟨c0, hc0, rfl⟩ := List.mem_map.mp hc
    exact ws_normCharMap c0 (hS c0 hc0)

/-- The non-sentinel unfolding of `_normalize_text_for_match`: trim before the
character map does not change the word sequence. -/
theorem normalize_text_eq (s : String)
    (h : ¬ (trimChars s.data = [] ∨ lowerChars (trimChars s.data) = "not available".data)) :
    (normalize_text_for_match s).data = joinWords (splitWs (s.data.map normCharMap)) := by
  simp only [normalize_text_for_match]
  rw [if_neg h]
  show joinWords (splitWs ((trimChars s.data).map normCharMap)) = _
  rw [splitWs_map_trim]

theorem normalize_text_sentinel (s : String)
    (h : trimChars s.data = [] ∨ lowerChars (trimChars s.data) = "not available".data) :
    normalize_text_for_match s = "" := by
  simp only [normalize_text_for_match]
  rw [if_pos h]

/-! ### The thermal predicate in terms of the projected statement -/

theorem str_append_data (a b : String) : (a ++ b).data = a.data ++ b.data := rfl

theorem mem_dropWhile_of_neg {α : Type} (p : α → Bool) (c : α) :
    ∀ l : List α, c ∈ l → p c = false → c ∈ l.dropWhile p := by
  intro l
  induction l with
  | nil => intro h _; cases h
  | cons x xs ih =>
    intro hc hpc
    by_cases hx : p x = true
    · rw [List.dropWhile_cons_of_pos hx]
      rcases List.mem_cons.mp hc with rfl | hc2
      · exact absurd hx (by simp [hpc])
      · exact ih hc2 hpc
    · rw [List.dropWhile_cons_of_neg hx]
      exact hc

theorem mem_trimChars (l : List Char) (c : Char) (hc : c ∈ l) (hw : isWsChar c = false) :
    c ∈ trimChars l := by
  unfold trimChars
  rw [List.mem_reverse]
  apply mem_dropWhile_of_neg _ _ _ ?_ hw
  rw [List.mem_reverse]
  exact mem_dropWhile_of_neg _ _ _ hc hw

theorem mem_joinSep_head (sep s : String) (r : List String) (c : Char) (hc : c ∈ s.data) :
    c ∈ (joinSep sep (s :: r)).data := by
  cases r with
  | nil => exact hc
  | cons b t =>
    show c ∈ (s ++ sep ++ joinSep sep (b :: t)).data
    rw [str_append_data, str_append_data]
    exact List.mem_append_left _ (List.mem_append_left _ hc)

theorem pos_patterns_nonempty : ∀ p ∈ POS_MOISTURE_PATTERNS, p.data ≠ [] := by decide

theorem thermal_parts_shape (f : ThermalFact) (hy : f.thermal_anomaly = ThermalAnomaly.yes)
    (h1 : f.suspected_issue ≠ "") (h2 : f.suspected_issue ≠ "Not Available") :
    ∃ tmore, thermal_parts f = f.suspected_issue ::
      ("thermal_anomaly=" ++ thermalAnomalyStr ThermalAnomaly.yes) :: tmore := by
  refine ⟨(if temp_entries f ≠ [] then ["temps=" ++ joinSep "; " (temp_entries f)] else []) ++
    (if f.notes ≠ "" ∧ f.notes ≠ "Not Available" then [f.notes] else []), ?_⟩
  unfold thermal_parts
  rw [if_pos ⟨h1, h2⟩, hy]
  rw [if_pos (by decide : ThermalAnomaly.yes ≠ ThermalAnomaly.not_mentioned)]
  simp [List.append_assoc]

/-- Key lemma: when the thermal anomaly is "yes", a positive-moisture keyword
found in the normalized suspected issue also occurs in the normalized
projected statement, because the suspected issue is the first part of the
statement and normalization splits cleanly at the separator. -/
theorem thermal_suspected_mentions_stmt (f : ThermalFact)
    (hy : f.thermal_anomaly = ThermalAnomaly.yes)
    (hm : mentions_any f.suspected_issue POS_MOISTURE_PATTERNS = true) :
    mentions_any (thermal_statement f) POS_MOISTURE_PATTERNS = true := by
  unfold mentions_any at hm
  rw [List.any_eq_true] at hm
  obtain ⟨p, hp, hd⟩ := hm
  have hinf := of_decide_eq_true hd
  have hpne : p.data ≠ [] := pos_patterns_nonempty p hp
  have hss : ¬ (trimChars f.suspected_issue.data = [] ∨
      lowerChars (trimChars f.suspected_issue.data) = "not available".data) := by
    intro hcon
    rw [normalize_text_sentinel _ hcon] at hinf
    have hlen := hinf.sublist.length_le
    simp only [List.length_nil, Nat.le_zero] at hlen
    exact hpne (List.eq_nil_of_length_eq_zero hlen)
  have hsne : f.suspected_issue ≠ "" := by
    intro hcon
    apply hss
    rw [hcon]
    exact Or.inl rfl
  have hsNA : f.suspected_issue ≠ "Not Available" := by
    intro hcon
    apply hss
    rw [hcon]
    exact Or.inr (by decide)
  obtain ⟨tmore, hparts⟩ := thermal_parts_shape f hy hsne hsNA
  have hpartsne : thermal_parts f ≠ [] := by
    rw [hparts]
    simp
  have hstmt : thermal_statement f = f.suspected_issue ++ " | " ++
      joinSep " | " (("thermal_anomaly=" ++ thermalAnomalyStr ThermalAnomaly.yes) :: tmore) := by
    unfold thermal_statement
    rw [if_neg hpartsne, hparts]
    rfl
  have heqmem : '=' ∈ (thermal_statement f).data := by
    rw [hstmt]
    show '=' ∈ ((f.suspected_issue ++ " | ") ++ joinSep " | " _).data
    rw [str_append_data]
    exact List.mem_append_right _
      (mem_joinSep_head " | " _ tmore '=' (by decide))
  have hstmt_ns : ¬ (trimChars (thermal_statement f).data = [] ∨
      lowerChars (trimChars (thermal_statement f).data) = "not available".data) := by
    intro hcon
    have hmem_trim : '=' ∈ trimChars (thermal_statement f).data :=
      mem_trimChars _ _ heqmem (by decide)
    rcases hcon with hcon | hcon
    · rw [hcon] at hmem_trim
      cases hmem_trim
    · have hmem_low : '=' ∈ lowerChars (trimChars (thermal_statement f).data) :=
        List.mem_map.mpr ⟨'=', hmem_trim, by decide⟩
      rw [hcon] at hmem_low
      revert hmem_low
      decide
  have hsusp_norm := normalize_text_eq f.suspected_issue hss
  have hstmt_norm := normalize_text_eq (thermal_statement f) hstmt_ns
  have hdata : (thermal_statement f).data = f.suspected_issue.data ++
      ' ' :: '|' :: ' ' :: (joinSep " | "
        (("thermal_anomaly=" ++ thermalAnomalyStr ThermalAnomaly.yes) :: tmore)).data := by
    rw [hstmt, str_append_data, str_append_data]
    simp
  have hsplit : splitWs ((thermal_statement f).data.map normCharMap) =
      splitWs (f.suspected_issue.data.map normCharMap) ++
        splitWs ((joinSep " | "
          (("thermal_anomaly=" ++ thermalAnomalyStr ThermalAnomaly.yes) :: tmore)).data.map
            normCharMap) := by
    rw [hdata, List.map_append]
    simp only [List.map_cons]
    rw [(by decide : normCharMap ' ' = ' '), (by decide : normCharMap '|' = ' ')]
    rw [splitWs_append_ws _ _ ' ' (by decide)]
    rw [splitWs_ws_cons ' ' _ (by decide), splitWs_ws_cons ' ' _ (by decide)]
  rw [hsusp_norm] at hinf
  have hAne : splitWs (f.suspected_issue.data.map normCharMap) ≠ [] := by
    intro hcon
    rw [hcon] at hinf
    have hlen := hinf.sublist.length_le
    simp only [joinWords, List.length_nil, Nat.le_zero] at hlen
    exact hpne (List.eq_nil_of_length_eq_zero hlen)
  unfold mentions_any
  rw [List.any_eq_true]
  refine ⟨p, hp, decide_eq_true ?_⟩
  rw [hstmt_norm, hsplit]
  by_cases hB : splitWs ((joinSep " | "
      (("thermal_anomaly=" ++ thermalAnomalyStr ThermalAnomaly.yes) :: tmore)).data.map
        normCharMap) = []
  · rw [hB, List.append_nil]
    exact hinf
  · rw [joinWords_append _ _ hAne hB]
    exact hinf.trans (List.prefix_append _ _).isInfix

/-- The extra `suspected_issue` branch of `_thermal_indicates_moisture_anomaly`
is redundant: the predicate is equivalent to "anomaly is yes and the projected
statement mentions a positive-moisture keyword". -/
theorem thermal_pred_eq (f : ThermalFact) :
    thermal_indicates_moisture_anomaly f =
      (decide (f.thermal_anomaly = ThermalAnomaly.yes) &&
        mentions_any (thermal_statement f) POS_MOISTURE_PATTERNS) := by
  unfold thermal_indicates_moisture_anomaly
  by_cases hy : f.thermal_anomaly = ThermalAnomaly.yes
  · rw [decide_eq_true hy]
    by_cases hs : mentions_any f.suspected_issue POS_MOISTURE_PATTERNS = true
    · rw [hs, thermal_suspected_mentions_stmt f hy hs]
      rfl
    · have hs2 : mentions_any f.suspected_issue POS_MOISTURE_PATTERNS = false :=
        Bool.eq_false_iff.mpr hs
      rw [hs2]
      simp [Bool.and_comm]
  · have hy2 : decide (f.thermal_anomaly = ThermalAnomaly.yes) = false := decide_eq_false hy
    rw [hy2]
    simp

/-! ### C2: conflict detection is the cross-product of qualifying pairs -/

theorem flatMap_congr_mem {α β : Type} (f g : α → List β) (l : List α)
    (h : ∀ a ∈ l, f a = g a) : l.flatMap f = l.flatMap g := by
  induction l with
  | nil => rfl
  | cons x xs ih =>
    simp only [List.flatMap_cons, h x (by simp), ih (fun a ha => h a (by simp [ha]))]

theorem bool_not_isEmpty_iff {β : Type} (l : List β) : (!l.isEmpty) = true ↔ l ≠ [] := by
  cases l <;> simp

/-- C2: within every output Area Group the conflict list is exactly the full
cross-product over the de-duplicated facts: one conflict per (inspection fact
indicating no moisture) × (thermal fact with anomaly "yes" whose projected
statement mentions a positive-moisture keyword); each conflict carries the
moisture-contradiction type and a true marker; and the group's flag is true
iff the conflict list is non-empty. -/
theorem merge_conflicts_cross_product (inspection : Option InspectionFactsDoc)
    (thermal : Option ThermalFactsDoc) (q : ℚ) :
    ∀ e ∈ (merge_and_dedupe inspection thermal q).merged_areas,
      e.conflicts = e.inspection_facts.flatMap (fun inf =>
        if inspection_indicates_no_moisture inf then
          e.thermal_facts.flatMap (fun thf =>
            if decide (thf.thermal_anomaly = ThermalAnomaly.yes) &&
                mentions_any (thermal_statement thf) POS_MOISTURE_PATTERNS then
              [mk_conflict inf thf]
            else [])
        else []) ∧
      (e.conflict_detected = true ↔ e.conflicts ≠ []) ∧
      (∀ c ∈ e.conflicts,
        c.type = "inspection_no_moisture_vs_thermal_moisture_anomaly" ∧
          c.conflict_detected = true) := by
  intro e he
  rw [merged_areas_eq] at he
  obtain ⟨g, hg, rfl⟩ := List.mem_map.mp he
  refine ⟨?_, ?_, ?_⟩
  · show area_conflicts (dedupe_facts inspection_statement q g.insp)
      (dedupe_facts thermal_statement q g.therm) = _
    unfold area_conflicts
    apply flatMap_congr_mem
    intro inf _
    by_cases hi : inspection_indicates_no_moisture inf = true
    · rw [if_pos hi, if_pos hi]
      apply flatMap_congr_mem
      intro thf _
      rw [thermal_pred_eq thf]
    · rw [if_neg hi, if_neg hi]
  · show (!(area_conflicts (dedupe_facts inspection_statement q g.insp)
        (dedupe_facts thermal_statement q g.therm)).isEmpty) = true ↔ _ ≠ []
    exact bool_not_isEmpty_iff _
  · intro c hc
    have hc2 : c ∈ area_conflicts (dedupe_facts inspection_statement q g.insp)
        (dedupe_facts thermal_statement q g.therm) := hc
    unfold area_conflicts at hc2
    obtain ⟨inf, _, hc3⟩ := List.mem_flatMap.mp hc2
    by_cases hi : inspection_indicates_no_moisture inf = true
    · rw [if_pos hi] at hc3
      obtain ⟨thf, _, hc4⟩ := List.mem_flatMap.mp hc3
      by_cases ht : thermal_indicates_moisture_anomaly thf = true
      · rw [if_pos ht] at hc4
        rcases List.mem_singleton.mp hc4 with rfl
        exact ⟨rfl, rfl⟩
      · rw [if_neg ht] at hc4
        cases hc4
    · rw [if_neg hi] at hc3
      cases hc3

set_option maxRecDepth 8000 in
theorem merge_conflicts_cross_product_witness :
    ((merge_and_dedupe (some ⟨[laundryFact], []⟩) (some ⟨[utilityThermalFact], []⟩)
        (92/100)).merged_areas.headI.conflict_detected = true ↔
      (merge_and_dedupe (some ⟨[laundryFact], []⟩) (some ⟨[utilityThermalFact], []⟩)
        (92/100)).merged_areas.headI.conflicts ≠ []) :=
  ((merge_conflicts_cross_product (some ⟨[laundryFact], []⟩)
      (some ⟨[utilityThermalFact], []⟩) (92/100)) _
    (by with_unfolding_all exact List.mem_cons_self _ _)).2.1

end MergeLayer
